import Mathlib

/-!
# Verification of the concurrency-handler admission controller

Shallow embedding of `src/lib/concurrency-handler.js`: a per-category
admission controller with FIFO queues, a recursive admission sweep
(`next`), idempotent release tokens, and drain notifications.

Modelling conventions:
* Categories are strings (the source coerces every category to a string).
* JS numbers used as amounts/limits are modelled as `Int`.
* The per-request callback is external code; its invocation is recorded as
  an `Event.invoke` entry carrying the argument list that the source would
  pass to `callback.apply` (callbacks are inert: they do not re-enter the
  handler, matching the asynchronous-completion usage in the source).
* JS arrays are mutable objects aliased by reference; they are modelled by
  an explicit heap `arrays : List (List Val)` addressed by index, so that
  the in-place `args.unshift(release)` of the source (line 134) and the
  sharing of a category-default arguments array are represented faithfully.
* `Date` timestamps (debug bookkeeping `queued/started/completed`) are real
  time and are not modelled; the remaining debug bookkeeping fields
  (`running`, `globalRunIndex`, `categoryRunIndex`) are modelled.
* `config.context` is an opaque object reference that the scheduler only
  forwards to `callback.apply` and never reads; it is not modelled.
* The debug snapshot (`duplicateDebugData`) is a shallow copy that the
  library writes and never reads; it is not stored in the state. Its only
  scheduler-relevant channel — the nested `arguments` array it shares with
  the live request — is modelled through the array heap (see the `scrub`
  bisimulation).
* Thrown JS strings are modelled as an `Err` value returned next to the
  state; because the source mutates global state before throwing and every
  `throw` happens in tail position relative to the public entry points, an
  operation returns the (mutated) state together with `Option Err`.
-/

/-- Values that can sit in an arguments array: a request's release token, or
an opaque external value supplied by the caller. -/
inductive Val where
  | token (rid : Nat)
  | ext (n : Nat)
deriving Repr, DecidableEq

/-- Errors thrown by the source: `setMax` invalid-amount (a
`ConfigurationError`), and the `next` runtime error for a queue head whose
amount exceeds the category maximum (an `AdmissionError`). -/
inductive Err where
  | config (amount : Int)
  | admission (category : String) (amount : Int) (maxAmount : Int)
deriving Repr, DecidableEq

/-- Observable events: an admission (the callback invocation, with the
argument list passed to it) and a drain notification. -/
inductive Event where
  | invoke (rid : Nat) (args : List Val)
  | drain (category : String)
deriving Repr, DecidableEq

/-- A queued/running request: the internal `config` object of `queue`.
Requests are identified by their index in the global request pool. -/
structure Request where
  category : String
  amount : Int
  curryRelease : Bool
  debug : Bool
  unshift : Bool
  /-- Index into the arrays heap of the `config.arguments` array. -/
  argsId : Nat
  inQueue : Bool
  released : Bool
  running : Bool
  globalRunIndex : Option Nat
  categoryRunIndex : Option Nat
deriving Repr, DecidableEq, Inhabited

/-- Per-category defaults (`defaults[category]` in the source). The
`arguments` default is a reference to a shared array (or null). `onDrain`
records whether a drain callback function is registered. -/
structure CatDefaults where
  amount : Int
  curryRelease : Bool
  debug : Bool
  arguments : Option Nat
  unshift : Bool
  onDrain : Bool
deriving Repr, DecidableEq, Inhabited

/-- Per-category state: `queues[c]`, `max[c]`, `consumed[c]`,
`categoryRunCount[c]`, `defaults[c]`. -/
structure Cat where
  queue : List Nat
  max : Int
  consumed : Int
  runCount : Nat
  defaults : CatDefaults
deriving Repr, DecidableEq, Inhabited

/-- The initial value a category receives in `createCategory`. -/
def Cat.init : Cat :=
  { queue := []
    max := 1
    consumed := 0
    runCount := 0
    defaults :=
      { amount := 1
        curryRelease := true
        debug := false
        arguments := none
        unshift := false
        onDrain := false } }

/-- The whole handler state (the module-level variables of the source). -/
structure CHState where
  cats : String → Cat
  requests : List Request
  arrays : List (List Val)
  globalRunCount : Nat
  defaultCategory : Option String
  events : List Event

/-- Initial state. Every category is mapped to `Cat.init`; since
`createCategory` writes exactly these values on first reference, lazily
creating a category is a no-op on this representation. -/
def initState : CHState :=
  { cats := fun _ => Cat.init
    requests := []
    arrays := []
    globalRunCount := 0
    defaultCategory := none
    events := [] }

/-- Update one category's data. -/
def CHState.updateCat (s : CHState) (c : String) (f : Cat → Cat) : CHState :=
  { s with cats := fun c' => if c' = c then f (s.cats c') else s.cats c' }

theorem CHState.updateCat_cats (s : CHState) (c : String) (f : Cat → Cat)
    (c' : String) :
    ((s.updateCat c f).cats c') = if c' = c then f (s.cats c) else s.cats c' := by
  by_cases h : c' = c <;> simp [CHState.updateCat, h]

/-- `createCategory` (source lines 56-96): normalizes an optional category
to a string, lazily fixing the default category. -/
def createCategory (s : CHState) (category : Option String) : CHState × String :=
  let c := category.getD (s.defaultCategory.getD "")
  ({ s with defaultCategory := some (s.defaultCategory.getD c) }, c)

/-- Mark a request admitted (source lines 126 and 137-144): `inQueue`
becomes false; when debugging, `running` and the run indices are recorded
(the `started` timestamp is real time and is not modelled). -/
def admittedMark (r : Request) (g : Nat) (k : Nat) : Request :=
  if r.debug then
    { r with inQueue := false, running := true,
             globalRunIndex := some g, categoryRunIndex := some k }
  else { r with inQueue := false }

/-- The argument list passed to the admitted callback (source lines
131-135): the stored array's contents, with the release token prepended
when `curryRelease` is set. -/
def admitArgs (s : CHState) (rid : Nat) (r : Request) : List Val :=
  if r.curryRelease then Val.token rid :: s.arrays.getD r.argsId []
  else s.arrays.getD r.argsId []

/-- The admission of the queue head inside `next` (source lines 124-152),
as a single state transition: shift the queue (`queue := rest`) and clear
`inQueue`; add the request's amount to `consumed`; when `curryRelease` is
set, `args.unshift(release)` mutates the stored arguments array in place
(`arrays.set` at the same heap index); record debug bookkeeping; increment
`globalRunCount` and `categoryRunCount`; invoke the callback (recorded as
an `Event.invoke` with the argument list). -/
def admitStep (s : CHState) (c : String) (rid : Nat) (rest : List Nat) : CHState :=
  let r := s.requests.getD rid default
  let args := admitArgs s rid r
  { cats := fun c' =>
      if c' = c then
        { s.cats c' with queue := rest, consumed := (s.cats c').consumed + r.amount,
                         runCount := (s.cats c').runCount + 1 }
      else s.cats c'
    requests := s.requests.set rid (admittedMark r s.globalRunCount (s.cats c).runCount)
    arrays := if r.curryRelease then s.arrays.set r.argsId args else s.arrays
    globalRunCount := s.globalRunCount + 1
    defaultCategory := s.defaultCategory
    events := s.events ++ [Event.invoke rid args] }

/-- The recursive admission sweep `next` (source lines 99-156). The first
argument is the category's current queue, which drives the recursion; it is
kept in sync with `(s.cats c).queue` by construction (the source reads
`queues[category]` directly; with inert callbacks the queue only shrinks
during a sweep, so recursion on it is well founded). -/
def sweep : List Nat → CHState → String → CHState × Option Err
  | [], s, c =>
      if (s.cats c).consumed = 0 ∧ (s.cats c).defaults.onDrain = true then
        ({ s with events := s.events ++ [Event.drain c] }, none)
      else (s, none)
  | rid :: rest, s, c =>
      let r := s.requests.getD rid default
      if (s.cats c).consumed + r.amount > (s.cats c).max then
        if r.amount > (s.cats c).max then
          (s, some (Err.admission c r.amount (s.cats c).max))
        else (s, none)
      else sweep rest (admitStep s c rid rest) c

/-- `next(category)`: run the sweep on the category's queue. -/
def next (s : CHState) (c : String) : CHState × Option Err :=
  sweep (s.cats c).queue s c

/-- `ch.setMax` (source lines 176-202). The invalid-amount check happens
before the category is even normalized. -/
def setMax (s : CHState) (category : Option String) (amount : Int) :
    CHState × Option Err :=
  if 0 ≥ amount then (s, some (Err.config amount))
  else
    let p := createCategory s category
    let s1 := p.1.updateCat p.2 fun k => { k with max := amount }
    next s1 p.2

/-- `ch.getMax` (source lines 205-211). Accessors also normalize (and hence
may create) the category. -/
def getMax (s : CHState) (category : Option String) : CHState × Int :=
  let p := createCategory s category
  (p.1, (p.1.cats p.2).max)

/-- `ch.onDrain` (source lines 214-229): registers the drain callback. -/
def onDrain (s : CHState) (category : Option String) : CHState :=
  let p := createCategory s category
  p.1.updateCat p.2 fun k => { k with defaults := { k.defaults with onDrain := true } }

/-- `ch.getRunning` (source lines 232-238). -/
def getRunning (s : CHState) (category : Option String) : CHState × Int :=
  let p := createCategory s category
  (p.1, (p.1.cats p.2).consumed)

/-- `ch.getFree` (source lines 241-247). -/
def getFree (s : CHState) (category : Option String) : CHState × Int :=
  let p := createCategory s category
  (p.1, (p.1.cats p.2).max - (p.1.cats p.2).consumed)

/-- `ch.setDefaultCategory` (source lines 250-256). -/
def setDefaultCategory (s : CHState) (category : String) : CHState :=
  let p := createCategory s (some category)
  { p.1 with defaultCategory := some p.2 }

/-- The fields accepted by `ch.setCategoryDefaults`; `none` means the field
is absent from the supplied object. A supplied `arguments` of
`some (some l)` is a JS array literal with contents `l` (allocated once and
then shared by reference); `some none` sets the default back to null. -/
structure DefaultsIn where
  amount : Option Int := none
  curryRelease : Option Bool := none
  debug : Option Bool := none
  arguments : Option (Option (List Val)) := none
  unshift : Option Bool := none
  onDrain : Option Bool := none
deriving Repr, DecidableEq

/-- Merge supplied defaults over the existing ones, field by field. -/
def CatDefaults.merge (d : CatDefaults) (nd : DefaultsIn) (args : Option Nat) :
    CatDefaults :=
  { amount := nd.amount.getD d.amount
    curryRelease := nd.curryRelease.getD d.curryRelease
    debug := nd.debug.getD d.debug
    arguments := if nd.arguments.isSome then args else d.arguments
    unshift := nd.unshift.getD d.unshift
    onDrain := nd.onDrain.getD d.onDrain }

/-- `ch.setCategoryDefaults` (source lines 259-279): copies every supplied
attribute over the category's defaults. A supplied arguments array is
allocated in the heap and stored by reference. -/
def setCategoryDefaults (s : CHState) (category : Option String) (nd : DefaultsIn) :
    CHState :=
  let p := createCategory s category
  match nd.arguments with
  | some (some l) =>
      let aid := p.1.arrays.length
      let s1 := { p.1 with arrays := p.1.arrays ++ [l] }
      s1.updateCat p.2 fun k => { k with defaults := k.defaults.merge nd (some aid) }
  | some none =>
      p.1.updateCat p.2 fun k => { k with defaults := k.defaults.merge nd none }
  | none =>
      p.1.updateCat p.2 fun k => { k with defaults := k.defaults.merge nd none }

/-- The configuration object passed to `ch.queue`; `none` marks an absent
field. A supplied `arguments` is a JS array with the given contents
(`configIn.arguments instanceof Array`); when absent, the category default
array is used by reference, or a fresh empty array is allocated. -/
structure ConfigIn where
  category : Option String := none
  arguments : Option (List Val) := none
  curryRelease : Option Bool := none
  amount : Option Int := none
  debug : Option Bool := none
  unshift : Option Bool := none
deriving Repr, DecidableEq

/-- Resolution of `config.arguments` (source line 304): a supplied array is
allocated fresh; otherwise the category-default array is used by reference
(`categoryDefaults.arguments`), or a fresh empty array (`|| []`). -/
def resolveArgs (s : CHState) (cin : ConfigIn) (cd : CatDefaults) : Nat × CHState :=
  match cin.arguments with
  | some l => (s.arrays.length, { s with arrays := s.arrays ++ [l] })
  | none =>
      match cd.arguments with
      | some aid => (aid, s)
      | none => (s.arrays.length, { s with arrays := s.arrays ++ [[]] })

/-- `ch.queue` (source lines 282-387): build the internal config with
per-category defaults, insert it at the back (or front, for `unshift`) of
the queue, then run the sweep. The returned release token is identified
with the request id. -/
def queue (s : CHState) (cin : ConfigIn) : CHState × Option Err :=
  let p := createCategory s cin.category
  let c := p.2
  let cd := ((p.1).cats c).defaults
  let ar := resolveArgs p.1 cin cd
  let s2 := ar.2
  let rid := s2.requests.length
  let r : Request :=
    { category := c
      amount := cin.amount.getD cd.amount
      curryRelease := cin.curryRelease.getD cd.curryRelease
      debug := cin.debug.getD cd.debug
      unshift := cin.unshift.getD cd.unshift
      argsId := ar.1
      inQueue := true
      released := false
      running := false
      globalRunIndex := none
      categoryRunIndex := none }
  let s3 := { s2 with requests := s2.requests ++ [r] }
  let s4 := s3.updateCat c fun k =>
    { k with queue := if r.unshift then rid :: k.queue else k.queue ++ [rid] }
  next s4 c

/-- The release token of request `rid` (source lines 313-356): idempotence
guard, queue removal for still-queued requests, `consumed` decrement for
running ones, terminal `released` mark, then a sweep. -/
def release (s : CHState) (rid : Nat) : CHState × Option Err :=
  match s.requests[rid]? with
  | none => (s, none)
  | some r =>
      if r.released then (s, none)
      else
        let s1 :=
          if r.inQueue then
            s.updateCat r.category fun k => { k with queue := k.queue.erase rid }
          else
            s.updateCat r.category fun k => { k with consumed := k.consumed - r.amount }
        let r' := if r.debug then { r with released := true, running := false }
                  else { r with released := true }
        let s2 := { s1 with requests := s1.requests.set rid r' }
        next s2 r.category

/-- A public operation on the handler. -/
inductive Op where
  | setMax (category : Option String) (amount : Int)
  | getMax (category : Option String)
  | getRunning (category : Option String)
  | getFree (category : Option String)
  | onDrain (category : Option String)
  | setDefaultCategory (category : String)
  | setCategoryDefaults (category : Option String) (nd : DefaultsIn)
  | queue (cin : ConfigIn)
  | release (rid : Nat)

/-- One public operation as a state transition returning an optional error. -/
def step (s : CHState) : Op → CHState × Option Err
  | .setMax c a => setMax s c a
  | .getMax c => ((getMax s c).1, none)
  | .getRunning c => ((getRunning s c).1, none)
  | .getFree c => ((getFree s c).1, none)
  | .onDrain c => (onDrain s c, none)
  | .setDefaultCategory c => (setDefaultCategory s c, none)
  | .setCategoryDefaults c nd => (setCategoryDefaults s c nd, none)
  | .queue cin => queue s cin
  | .release rid => release s rid

/-- Run a list of operations, collecting each operation's error outcome. -/
def run : CHState → List Op → CHState × List (Option Err)
  | s, [] => (s, [])
  | s, op :: ops =>
      let p := step s op
      let q := run p.1 ops
      (q.1, p.2 :: q.2)

/-- The request ids admitted so far, in admission order. -/
def admitsOf : List Event → List Nat
  | [] => []
  | .invoke rid _ :: es => rid :: admitsOf es
  | .drain _ :: es => admitsOf es

/-- Admission order of a state. -/
def admits (s : CHState) : List Nat := admitsOf s.events

/-- Number of drain notifications fired for category `c`. -/
def drainsOf (c : String) : List Event → Nat
  | [] => 0
  | .drain c' :: es => (if c' = c then 1 else 0) + drainsOf c es
  | .invoke _ _ :: es => drainsOf c es

/-! ## Derived notions used by the claims -/

/-- Is this error outcome a `ConfigurationError` (the `setMax` invalid
amount throw)? -/
def isConfigErr : Option Err → Bool
  | some (Err.config _) => true
  | _ => false

/-- A request is in the Running state: admitted (no longer queued) and not
yet released. -/
def isRunning (r : Request) : Bool := !r.inQueue && !r.released

/-- The contribution of one request to category `c`'s running total. -/
def contrib (c : String) (r : Request) : Int :=
  if r.category = c ∧ isRunning r = true then r.amount else 0

/-- Sum of the amounts of all Running requests of category `c`. -/
def runningAmount (c : String) : List Request → Int
  | [] => 0
  | r :: t => contrib c r + runningAmount c t

/-- The request fields fixed at submission (plus the terminal `released`
mark, which only `release` itself ever sets). -/
def Request.core (r : Request) : String × Int × Bool × Bool × Bool × Nat × Bool :=
  (r.category, r.amount, r.curryRelease, r.debug, r.unshift, r.argsId, r.released)

/-- Specification-side description of the admission sweep: starting from
`used` consumed units, repeatedly admit the queue head while it fits under
the limit `m`, and stop (keeping the remainder) at the first head that does
not fit. Returns (admitted prefix, remaining queue). -/
def greedySplit (m : Int) (amt : Nat → Int) : Int → List Nat → List Nat × List Nat
  | _, [] => ([], [])
  | used, rid :: rest =>
      if used + amt rid > m then ([], rid :: rest)
      else
        let p := greedySplit m amt (used + amt rid) rest
        (rid :: p.1, p.2)

/-- Sum of the amounts of a list of request ids. -/
def amountSum (amt : Nat → Int) : List Nat → Int
  | [] => 0
  | rid :: rest => amt rid + amountSum amt rest

/-- Erase the argument payload of an admission event, keeping the admitted
request id and its position. -/
def scrubEvent : Event → Event
  | .invoke rid _ => .invoke rid []
  | .drain c => .drain c

/-- The scheduler-observable part of a state: everything except the
contents of the argument arrays (their number is kept, since array ids are
allocated sequentially) and the argument payloads of admission events.
Two states with equal `scrub` differ only in data reachable through the
arguments arrays — exactly what external mutation of a debug snapshot's
nested `arguments`/`context` references can touch. -/
def scrub (s : CHState) : CHState :=
  { s with arrays := s.arrays.map fun _ => ([] : List Val)
           events := s.events.map scrubEvent }

/-- Field-by-field reading of `scrub` equality: two states agree on
everything the scheduler's decisions can read — categories, the request
pool, the number of allocated arrays, counters, the default category and
the argument-erased event history — and differ at most in array contents
and event argument payloads. -/
def ObsEq (s₁ s₂ : CHState) : Prop :=
  s₁.cats = s₂.cats ∧ s₁.requests = s₂.requests ∧
  s₁.arrays.length = s₂.arrays.length ∧
  s₁.globalRunCount = s₂.globalRunCount ∧
  s₁.defaultCategory = s₂.defaultCategory ∧
  s₁.events.map scrubEvent = s₂.events.map scrubEvent

/-- The trajectory of states visited while running `ops` (initial state
included). -/
def states : CHState → List Op → List CHState
  | s, [] => [s]
  | s, op :: ops => s :: states (step s op).1 ops

/-- Full idleness of a category: empty queue and zero consumed. -/
def isIdle (s : CHState) (c : String) : Bool :=
  (s.cats c).queue.isEmpty && decide ((s.cats c).consumed = 0)

/-- Number of transitions from non-idle to idle along a trajectory. -/
def idleTransitions (c : String) : List CHState → Nat
  | a :: b :: t =>
      (if !isIdle a c && isIdle b c then 1 else 0) + idleTransitions c (b :: t)
  | _ => 0

/-- Call a request's release token `n` times in a row, collecting the final
state and each call's error outcome. -/
def iterRelease : Nat → CHState → Nat → CHState × List (Option Err)
  | 0, s, _ => (s, [])
  | n + 1, s, rid =>
      let p := release s rid
      let q := iterRelease n p.1 rid
      (q.1, p.2 :: q.2)

/-! ## A small semantics of the JS sanity checks of `queue`

Source lines 287-293 test `! configIn instanceof Object` and
`! configIn.callback instanceof Function`. In JS, prefix `!` binds tighter
than `instanceof`, so the negation produces a primitive boolean which is
then tested with `instanceof`. -/

/-- JS values, as far as the guards can distinguish them. -/
inductive JSVal where
  | undef
  | jsNull
  | bool (b : Bool)
  | num (n : Int)
  | str (s : String)
  | obj (id : Nat)
  | func (id : Nat)
  | arr (id : Nat)
deriving Repr, DecidableEq

/-- JS truthiness (numbers modelled as integers). -/
def truthy : JSVal → Bool
  | .undef => false
  | .jsNull => false
  | .bool b => b
  | .num n => decide (n ≠ 0)
  | .str s => !s.isEmpty
  | .obj _ => true
  | .func _ => true
  | .arr _ => true

/-- JS prefix `!`: always yields a primitive boolean. -/
def jsNot (v : JSVal) : JSVal := .bool (!truthy v)

/-- `v instanceof Object`: true exactly for object values (plain objects,
functions, arrays); false for every primitive. -/
def instanceofObject : JSVal → Bool
  | .obj _ => true
  | .func _ => true
  | .arr _ => true
  | _ => false

/-- `v instanceof Function`. -/
def instanceofFunction : JSVal → Bool
  | .func _ => true
  | _ => false

/-- First sanity check of `queue` (line 288): `! configIn instanceof Object`. -/
def queueSanityCheck1 (configIn : JSVal) : Bool := instanceofObject (jsNot configIn)

/-- Second sanity check of `queue` (line 291):
`! configIn.callback instanceof Function`. -/
def queueSanityCheck2 (callback : JSVal) : Bool := instanceofFunction (jsNot callback)

/-! ## The reachable-state invariant -/

/-- Invariant of reachable handler states, tying the queues, the request
pool, the `consumed` counters and the admission history together. -/
structure SchedInv (s : CHState) : Prop where
  /-- Every queue entry points at a queued, unreleased request of that
  category. -/
  queue_valid : ∀ c i, i ∈ (s.cats c).queue →
    ∃ r, s.requests[i]? = some r ∧ r.category = c ∧ r.inQueue = true ∧ r.released = false
  /-- A queued, unreleased request is in its category's queue. -/
  inQueue_mem : ∀ i r, s.requests[i]? = some r → r.inQueue = true → r.released = false →
    i ∈ (s.cats r.category).queue
  /-- No queue contains an entry twice. -/
  queue_nodup : ∀ c, ((s.cats c).queue).Nodup
  /-- The claimed counter law: `consumed` equals the running total. -/
  consumed_eq : ∀ c, (s.cats c).consumed = runningAmount c s.requests
  /-- A request has been admitted exactly when it is no longer queued. -/
  admits_iff : ∀ i r, s.requests[i]? = some r → (r.inQueue = false ↔ i ∈ admits s)
  /-- Admitted ids are valid and no longer queued. -/
  admits_valid : ∀ i, i ∈ admits s → ∃ r, s.requests[i]? = some r ∧ r.inQueue = false
  /-- No request is admitted twice. -/
  admits_nodup : (admits s).Nodup
  /-- Queue order: among plain (non-`unshift`) entries, queue position
  respects submission order. -/
  order : ∀ c, ((s.cats c).queue).Pairwise fun a b =>
    ∀ ra rb, s.requests[a]? = some ra → s.requests[b]? = some rb →
      ra.unshift = false → rb.unshift = false → a < b
  /-- FIFO history: if a later plain submission `b` has been admitted, an
  earlier plain submission `a` to the same category was admitted before it,
  unless `a` was cancelled while still queued. -/
  fifo : ∀ a b ra rb, s.requests[a]? = some ra → s.requests[b]? = some rb →
    ra.category = rb.category → ra.unshift = false → rb.unshift = false → a < b →
    b ∈ admits s →
    (a ∈ admits s ∧ (admits s).indexOf a < (admits s).indexOf b) ∨
      (ra.inQueue = true ∧ ra.released = true)

/-! # Frame lemmas -/

theorem updateCat_requests (s : CHState) (c : String) (f : Cat → Cat) :
    (s.updateCat c f).requests = s.requests := rfl

theorem updateCat_arrays (s : CHState) (c : String) (f : Cat → Cat) :
    (s.updateCat c f).arrays = s.arrays := rfl

theorem updateCat_events (s : CHState) (c : String) (f : Cat → Cat) :
    (s.updateCat c f).events = s.events := rfl

theorem admittedMark_core (r : Request) (g k : Nat) :
    (admittedMark r g k).core = r.core := by
  by_cases h : r.debug <;> simp [admittedMark, h, Request.core]

theorem admittedMark_inQueue (r : Request) (g k : Nat) :
    (admittedMark r g k).inQueue = false := by
  by_cases h : r.debug <;> simp [admittedMark, h]

theorem Request.core_eq {r₂ r : Request} (h : r₂.core = r.core) :
    r₂.category = r.category ∧ r₂.amount = r.amount ∧
    r₂.curryRelease = r.curryRelease ∧ r₂.debug = r.debug ∧
    r₂.unshift = r.unshift ∧ r₂.argsId = r.argsId ∧ r₂.released = r.released := by
  simpa [Request.core] using h

theorem admitStep_queue_self (s : CHState) (c : String) (rid : Nat) (rest : List Nat) :
    ((admitStep s c rid rest).cats c).queue = rest := by
  simp [admitStep]

theorem admitStep_cats_ne (s : CHState) (c : String) (rid : Nat) (rest : List Nat)
    {c' : String} (h : c' ≠ c) :
    (admitStep s c rid rest).cats c' = s.cats c' := by
  simp [admitStep, h]

theorem admitStep_max (s : CHState) (c : String) (rid : Nat) (rest : List Nat)
    (c' : String) :
    ((admitStep s c rid rest).cats c').max = (s.cats c').max := by
  by_cases h : c' = c <;> simp [admitStep, h]

theorem admitStep_defaults (s : CHState) (c : String) (rid : Nat) (rest : List Nat)
    (c' : String) :
    ((admitStep s c rid rest).cats c').defaults = (s.cats c').defaults := by
  by_cases h : c' = c <;> simp [admitStep, h]

theorem admitStep_consumed_self (s : CHState) (c : String) (rid : Nat) (rest : List Nat) :
    ((admitStep s c rid rest).cats c).consumed =
      (s.cats c).consumed + (s.requests.getD rid default).amount := by
  simp [admitStep]

theorem admitStep_requests (s : CHState) (c : String) (rid : Nat) (rest : List Nat) :
    (admitStep s c rid rest).requests =
      s.requests.set rid
        (admittedMark (s.requests.getD rid default) s.globalRunCount (s.cats c).runCount) := rfl

theorem admitStep_events (s : CHState) (c : String) (rid : Nat) (rest : List Nat) :
    (admitStep s c rid rest).events =
      s.events ++ [Event.invoke rid (admitArgs s rid (s.requests.getD rid default))] := rfl

theorem admitStep_defaultCategory (s : CHState) (c : String) (rid : Nat) (rest : List Nat) :
    (admitStep s c rid rest).defaultCategory = s.defaultCategory := rfl

theorem admitStep_arrays_length (s : CHState) (c : String) (rid : Nat) (rest : List Nat) :
    (admitStep s c rid rest).arrays.length = s.arrays.length := by
  simp only [admitStep]
  split <;> simp

theorem admitStep_requests_length (s : CHState) (c : String) (rid : Nat) (rest : List Nat) :
    (admitStep s c rid rest).requests.length = s.requests.length := by
  simp [admitStep_requests]

/-- Bundled frame facts for the sweep: limits, defaults, other categories,
default category, heap size and pool size are untouched; events only grow. -/
theorem sweep_frame (q : List Nat) (s : CHState) (c : String) :
    (∀ c', ((sweep q s c).1.cats c').max = (s.cats c').max) ∧
    (∀ c', ((sweep q s c).1.cats c').defaults = (s.cats c').defaults) ∧
    (∀ c', c' ≠ c → (sweep q s c).1.cats c' = s.cats c') ∧
    (sweep q s c).1.defaultCategory = s.defaultCategory ∧
    (sweep q s c).1.arrays.length = s.arrays.length ∧
    (sweep q s c).1.requests.length = s.requests.length ∧
    ∃ es, (sweep q s c).1.events = s.events ++ es := by
  induction q generalizing s with
  | nil =>
      simp only [sweep]
      split
      · exact ⟨fun c' => rfl, fun c' => rfl, fun c' h => rfl, rfl, rfl, rfl,
          ⟨[Event.drain c], rfl⟩⟩
      · exact ⟨fun c' => rfl, fun c' => rfl, fun c' h => rfl, rfl, rfl, rfl, ⟨[], by simp⟩⟩
  | cons rid rest ih =>
      simp only [sweep]
      split
      · split
        · exact ⟨fun c' => rfl, fun c' => rfl, fun c' h => rfl, rfl, rfl, rfl, ⟨[], by simp⟩⟩
        · exact ⟨fun c' => rfl, fun c' => rfl, fun c' h => rfl, rfl, rfl, rfl, ⟨[], by simp⟩⟩
      · obtain ⟨h1, h2, h3, h4, h5, h6, es, h7⟩ := ih (admitStep s c rid rest)
        refine ⟨fun c' => ?_, fun c' => ?_, fun c' h => ?_, ?_, ?_, ?_, ?_⟩
        · rw [h1, admitStep_max]
        · rw [h2, admitStep_defaults]
        · rw [h3 c' h, admitStep_cats_ne s c rid rest h]
        · rw [h4, admitStep_defaultCategory]
        · rw [h5, admitStep_arrays_length]
        · rw [h6, admitStep_requests_length]
        · exact ⟨Event.invoke rid (admitArgs s rid (s.requests.getD rid default)) :: es,
            by rw [h7, admitStep_events]; simp⟩

theorem sweep_requests_length (q : List Nat) (s : CHState) (c : String) :
    (sweep q s c).1.requests.length = s.requests.length :=
  (sweep_frame q s c).2.2.2.2.2.1

theorem sweep_events_extend (q : List Nat) (s : CHState) (c : String) :
    ∃ es, (sweep q s c).1.events = s.events ++ es :=
  (sweep_frame q s c).2.2.2.2.2.2

/-- The sweep rewrites only the volatile flags of a request: the fields
fixed at submission and the `released` mark are preserved. -/
theorem sweep_core (q : List Nat) (s : CHState) (c : String) (i : Nat) (r : Request)
    (h : s.requests[i]? = some r) :
    ∃ r₂, (sweep q s c).1.requests[i]? = some r₂ ∧ r₂.core = r.core := by
  induction q generalizing s r with
  | nil =>
      simp only [sweep]
      split
      · exact ⟨r, h, rfl⟩
      · exact ⟨r, h, rfl⟩
  | cons rid rest ih =>
      simp only [sweep]
      split
      · split
        · exact ⟨r, h, rfl⟩
        · exact ⟨r, h, rfl⟩
      · have hlen : i < s.requests.length := (List.getElem?_eq_some.mp h).1
        by_cases hir : i = rid
        · subst hir
          have hgd : s.requests.getD i default = r := by
            simp [List.getD, h]
          have hset : (admitStep s c i rest).requests[i]? =
              some (admittedMark r s.globalRunCount (s.cats c).runCount) := by
            rw [admitStep_requests, hgd]
            simp [List.getElem?_set, hlen]
          obtain ⟨r₂, hr₂, hcore⟩ := ih (admitStep s c i rest) _ hset
          exact ⟨r₂, hr₂, hcore.trans (admittedMark_core r _ _)⟩
        · have hset : (admitStep s c rid rest).requests[i]? = some r := by
            rw [admitStep_requests]
            rw [List.getElem?_set_ne (fun he => hir he.symm)]
            exact h
          exact ih (admitStep s c rid rest) _ hset

theorem admitsOf_append (es es' : List Event) :
    admitsOf (es ++ es') = admitsOf es ++ admitsOf es' := by
  induction es with
  | nil => rfl
  | cons e t ih => cases e <;> simp [admitsOf, ih]

theorem drainsOf_append (c : String) (es es' : List Event) :
    drainsOf c (es ++ es') = drainsOf c es + drainsOf c es' := by
  induction es with
  | nil => simp [drainsOf]
  | cons e t ih => cases e <;> simp [drainsOf, ih, Nat.add_assoc]

theorem resolveArgs_requests (s : CHState) (cin : ConfigIn) (cd : CatDefaults) :
    (resolveArgs s cin cd).2.requests = s.requests := by
  cases h : cin.arguments with
  | some l => simp [resolveArgs, h]
  | none => cases h2 : cd.arguments <;> simp [resolveArgs, h, h2]

theorem resolveArgs_cats (s : CHState) (cin : ConfigIn) (cd : CatDefaults) :
    (resolveArgs s cin cd).2.cats = s.cats := by
  cases h : cin.arguments with
  | some l => simp [resolveArgs, h]
  | none => cases h2 : cd.arguments <;> simp [resolveArgs, h, h2]

theorem resolveArgs_events (s : CHState) (cin : ConfigIn) (cd : CatDefaults) :
    (resolveArgs s cin cd).2.events = s.events := by
  cases h : cin.arguments with
  | some l => simp [resolveArgs, h]
  | none => cases h2 : cd.arguments <;> simp [resolveArgs, h, h2]

/-! # C3: release tokens are idempotent -/

/-- `next` preserves request pool entries up to volatile flags; in
particular a released entry stays released. -/
theorem next_core_released (t : CHState) (cc : String) (rid : Nat) (rr : Request)
    (hb : t.requests[rid]? = some rr) (hr : rr.released = true) :
    ∃ r₂, (next t cc).1.requests[rid]? = some r₂ ∧ r₂.released = true := by
  obtain ⟨r₂, h₂, hcore⟩ := sweep_core _ t cc rid rr hb
  exact ⟨r₂, h₂, by rw [(Request.core_eq hcore).2.2.2.2.2.2, hr]⟩

/-- A release token whose request is already `released` is a silent no-op
(source lines 316-318). -/
theorem release_released {s : CHState} {rid : Nat} {r : Request}
    (h : s.requests[rid]? = some r) (hr : r.released = true) :
    release s rid = (s, none) := by
  simp [release, h, hr]

/-- After any call of a valid request's release token, the stored request is
marked `released`. -/
theorem release_marks {s : CHState} {rid : Nat} {r : Request}
    (h : s.requests[rid]? = some r) :
    ∃ r₂, (release s rid).1.requests[rid]? = some r₂ ∧ r₂.released = true := by
  by_cases hrel : r.released = true
  · exact ⟨r, by rw [release_released h hrel]; exact h, hrel⟩
  · have hlen : rid < s.requests.length := (List.getElem?_eq_some.mp h).1
    have hrel' : r.released = false := by simpa using hrel
    simp only [release, h, hrel', Bool.false_eq_true, if_false]
    by_cases hq : r.inQueue = true
    · simp only [hq, if_true]
      refine next_core_released _ _ _
        (if r.debug = true then { r with released := true, running := false }
         else { r with released := true }) ?_ ?_
      · rw [updateCat_requests]
        simp [List.getElem?_set, hlen, hq]
      · by_cases hd : r.debug = true <;> simp [hd]
    · have hq' : r.inQueue = false := by simpa using hq
      simp only [hq', Bool.false_eq_true, if_false]
      refine next_core_released _ _ _
        (if r.debug = true then { r with released := true, running := false }
         else { r with released := true }) ?_ ?_
      · rw [updateCat_requests]
        simp [List.getElem?_set, hlen, hq']
      · by_cases hd : r.debug = true <;> simp [hd]

/-- Re-invoking a release token after a first invocation leaves the state
untouched and reports no error. -/
theorem release_after_release (s : CHState) (rid : Nat) :
    release (release s rid).1 rid = ((release s rid).1, none) := by
  match h : s.requests[rid]? with
  | none =>
      have hfix : release s rid = (s, none) := by simp [release, h]
      rw [hfix]
      exact hfix
  | some r =>
      obtain ⟨r₂, hr₂, hrel₂⟩ := release_marks h
      exact release_released hr₂ hrel₂

theorem iterRelease_stable (m : Nat) (s : CHState) (rid : Nat)
    (h : release s rid = (s, none)) :
    iterRelease m s rid = (s, List.replicate m none) := by
  induction m with
  | zero => rfl
  | succ k ih => simp [iterRelease, h, ih, List.replicate_succ]

/-- Claim C3: for every request, calling its release token N ≥ 1 times has
the identical observable effect on all state (consumed counters, queue
contents, request states, drain firing — the final state is equal, so every
one of these agrees) as calling it exactly once, and the second and later
calls are silent no-ops reporting no error. -/
theorem C3_release_idempotent (s : CHState) (rid : Nat) (n : Nat) (hn : 1 ≤ n) :
    (iterRelease n s rid).1 = (release s rid).1 ∧
    (iterRelease n s rid).2 =
      (release s rid).2 :: List.replicate (n - 1) (none : Option Err) := by
  obtain ⟨m, rfl⟩ : ∃ m, n = m + 1 := ⟨n - 1, by omega⟩
  have hstable := iterRelease_stable m (release s rid).1 rid (release_after_release s rid)
  constructor
  · simp [iterRelease, hstable]
  · simp [iterRelease, hstable]

/-- Witness for C3: a concrete request released three times; the state after
three calls is the state after one, and the extra calls return no error. -/
theorem C3_witness :
    (iterRelease 3 (run initState [Op.queue {}]).1 0).1 =
      (release (run initState [Op.queue {}]).1 0).1 ∧
    (iterRelease 3 (run initState [Op.queue {}]).1 0).2 =
      (release (run initState [Op.queue {}]).1 0).2 ::
        List.replicate 2 (none : Option Err) :=
  C3_release_idempotent (run initState [Op.queue {}]).1 0 3 (by decide)

/-! # C7: setMax and the ConfigurationError -/

/-- The sweep itself never produces a `ConfigurationError` (its only throw
is the admission runtime error). -/
theorem sweep_not_configErr (q : List Nat) (s : CHState) (c : String) :
    isConfigErr (sweep q s c).2 = false := by
  induction q generalizing s with
  | nil =>
      simp only [sweep]
      split <;> simp [isConfigErr]
  | cons rid rest ih =>
      simp only [sweep]
      split
      · split <;> simp [isConfigErr]
      · exact ih _

/-- Claim C7: `setMax` fails with a `ConfigurationError`, reported
synchronously to its caller, exactly when the supplied amount is ≤ 0, and
on that failure the whole state (hence the category's capacity, consumed
counter and queue) is unchanged. -/
theorem C7_setMax_configError (s : CHState) (category : Option String) (amount : Int) :
    (isConfigErr (setMax s category amount).2 = true ↔ amount ≤ 0) ∧
    (amount ≤ 0 → (setMax s category amount).1 = s) := by
  by_cases h : 0 ≥ amount
  · have hs : setMax s category amount = (s, some (Err.config amount)) := by
      unfold setMax
      rw [if_pos h]
    rw [hs]
    exact ⟨iff_of_true rfl (by omega), fun _ => rfl⟩
  · constructor
    · refine iff_of_false ?_ (by omega)
      unfold setMax
      rw [if_neg h]
      simp only [next]
      simp [sweep_not_configErr]
    · exact fun hle => absurd hle (by omega)

/-- Witness for C7: `setMax` with amount −1 leaves the state untouched, and
its error outcome is a `ConfigurationError`. -/
theorem C7_witness :
    (setMax initState (some "x") (-1)).1 = initState ∧
    (isConfigErr (setMax initState (some "x") (-1)).2 = true ↔ (-1 : Int) ≤ 0) :=
  ⟨(C7_setMax_configError initState (some "x") (-1)).2 (by decide),
   (C7_setMax_configError initState (some "x") (-1)).1⟩

/-! # C9: the sanity checks of `queue` can never fire -/

/-- Claim C9: for every configuration value (object or not, callback
present or not), the two sanity checks of `queue` are false — the prefix
negation produces a primitive boolean, which is never an `instanceof`
anything — so no configuration is rejected at submission time: every
submission appends its request to the pool. -/
theorem C9_sanity_checks_never_fire (configIn callback : JSVal)
    (s : CHState) (cin : ConfigIn) :
    queueSanityCheck1 configIn = false ∧ queueSanityCheck2 callback = false ∧
    (queue s cin).1.requests.length = s.requests.length + 1 := by
  refine ⟨rfl, rfl, ?_⟩
  simp only [queue, next]
  rw [sweep_requests_length, updateCat_requests]
  simp [resolveArgs_requests, createCategory]

/-! # C1: the admission runtime error is re-raised by unrelated releases -/

/-- Claim C1 (evaluation at the failing input): with capacity 3, request 0
of amount 2 is admitted; submitting request 1 of amount 5 raises the
admission error at the submission — and releasing request 0 later raises
the very same admission error again, inside the unrelated caller's release
sweep, because the oversized request is still at the head of the queue.
This contradicts the claim that the error is reported exactly once and
never inside a later release's sweep. -/
theorem C1_admission_error_reraised_in_release :
    (run initState [Op.setMax none 3, Op.queue { amount := some 2 },
        Op.queue { amount := some 5 }, Op.release 0]).2 =
      [none, none, some (Err.admission "" 5 3), some (Err.admission "" 5 3)] ∧
    ((run initState [Op.setMax none 3, Op.queue { amount := some 2 },
        Op.queue { amount := some 5 }, Op.release 0]).1.cats "").queue = [1] := by
  constructor <;> decide

/-! # C5: when the drain callback fires -/

/-- Drain accounting for one sweep, category by category: the sweep fires
the drain callback of its own category exactly once when it terminates with
the queue empty and `consumed = 0` while a callback is registered, and it
never fires the drain callback of any other category. -/
theorem sweep_drains (q : List Nat) (s : CHState) (c : String)
    (hq : q = (s.cats c).queue) :
    (drainsOf c (sweep q s c).1.events =
      drainsOf c s.events +
        (if ((sweep q s c).1.cats c).queue = [] ∧ ((sweep q s c).1.cats c).consumed = 0 ∧
            (s.cats c).defaults.onDrain = true then 1 else 0)) ∧
    (∀ c', c' ≠ c → drainsOf c' (sweep q s c).1.events = drainsOf c' s.events) := by
  induction q generalizing s with
  | nil =>
      simp only [sweep]
      split
      · next hcond =>
          constructor
          · rw [drainsOf_append]
            rw [if_pos ⟨hq.symm, hcond.1, hcond.2⟩]
            simp [drainsOf]
          · intro c' hne
            rw [drainsOf_append]
            have hnc : ¬c = c' := fun h => hne h.symm
            simp [drainsOf, hnc]
      · next hcond =>
          constructor
          · rw [if_neg fun h => hcond ⟨h.2.1, h.2.2⟩]
            simp
          · intro c' hne
            rfl
  | cons rid rest ih =>
      simp only [sweep]
      split
      · split
        · constructor
          · rw [if_neg fun h => by rw [← hq] at h; exact List.cons_ne_nil rid rest h.1]
            simp
          · intro c' hne
            rfl
        · constructor
          · rw [if_neg fun h => by rw [← hq] at h; exact List.cons_ne_nil rid rest h.1]
            simp
          · intro c' hne
            rfl
      · have hq' : rest = ((admitStep s c rid rest).cats c).queue :=
          (admitStep_queue_self s c rid rest).symm
        obtain ⟨ih1, ih2⟩ := ih (admitStep s c rid rest) hq'
        constructor
        · rw [ih1, admitStep_events, drainsOf_append, admitStep_defaults]
          simp [drainsOf]
        · intro c' hne
          rw [ih2 c' hne, admitStep_events, drainsOf_append]
          simp [drainsOf]

/-- Claim C5, amended: a sweep (triggered by submission, release or a
capacity change) fires the registered drain callback of its category
exactly once when it ends with the queue empty and `consumed = 0`, and
fires no other category's callback; in particular no drain fires when the
queue empties while `consumed` is nonzero. (The original claim — one
invocation per transition to full idleness — is refuted by
`C5_counterexample`: a sweep on an already-idle category fires the
callback again without any transition.) -/
theorem C5_drain_fires_iff_sweep_ends_idle (s : CHState) (c : String) :
    (drainsOf c (next s c).1.events =
      drainsOf c s.events +
        (if ((next s c).1.cats c).queue = [] ∧ ((next s c).1.cats c).consumed = 0 ∧
            (s.cats c).defaults.onDrain = true then 1 else 0)) ∧
    (∀ c', c' ≠ c → drainsOf c' (next s c).1.events = drainsOf c' s.events) :=
  sweep_drains _ s c rfl

/-- Witness for the amended C5 at a concrete state: a category with a
registered callback and idle state fires once per sweep, and a different
category's drain count is untouched. -/
theorem C5_witness :
    (drainsOf "" (next (run initState [Op.onDrain none]).1 "").1.events =
      drainsOf "" (run initState [Op.onDrain none]).1.events +
        (if ((next (run initState [Op.onDrain none]).1 "").1.cats "").queue = [] ∧
            ((next (run initState [Op.onDrain none]).1 "").1.cats "").consumed = 0 ∧
            ((run initState [Op.onDrain none]).1.cats "").defaults.onDrain = true
         then 1 else 0)) ∧
    drainsOf "x" (next (run initState [Op.onDrain none]).1 "").1.events =
      drainsOf "x" (run initState [Op.onDrain none]).1.events :=
  ⟨(C5_drain_fires_iff_sweep_ends_idle (run initState [Op.onDrain none]).1 "").1,
   (C5_drain_fires_iff_sweep_ends_idle (run initState [Op.onDrain none]).1 "").2 "x"
     (by decide)⟩

/-- Counterexample to C5 as stated: along the trace `onDrain`, `setMax 2`,
`setMax 3` the default category is idle in every state — there is no
transition to full idleness at all — yet the drain callback fires twice
(once per `setMax`-triggered sweep). So the callback is not invoked
"exactly once per transition to full idleness". -/
theorem C5_counterexample :
    idleTransitions ""
        (states initState [Op.onDrain none, Op.setMax none 2, Op.setMax none 3]) = 0 ∧
    drainsOf ""
        (run initState [Op.onDrain none, Op.setMax none 2, Op.setMax none 3]).1.events = 2 := by
  decide

/-! # C6: raising the capacity admits the fitting queue prefix at once -/

theorem greedySplit_congr (m : Int) (amt₁ amt₂ : Nat → Int) (used : Int) (l : List Nat)
    (h : ∀ i ∈ l, amt₁ i = amt₂ i) :
    greedySplit m amt₁ used l = greedySplit m amt₂ used l := by
  induction l generalizing used with
  | nil => rfl
  | cons rid rest ih =>
      simp only [greedySplit]
      rw [h rid (List.mem_cons_self rid rest)]
      split
      · rfl
      · rw [ih _ fun i hi => h i (List.mem_cons_of_mem rid hi)]

theorem admittedMark_amount (r : Request) (g k : Nat) :
    (admittedMark r g k).amount = r.amount := by
  by_cases hd : r.debug <;> simp [admittedMark, hd]

/-- Admitting a request rewrites only its volatile flags, so the amounts
read off the pool are unchanged. -/
theorem admitStep_amounts (s : CHState) (c : String) (rid : Nat) (rest : List Nat) :
    (fun i => ((admitStep s c rid rest).requests.getD i default).amount) =
      (fun i => (s.requests.getD i default).amount) := by
  funext i
  rw [admitStep_requests]
  simp only [List.getD, List.getElem?_set]
  by_cases hir : rid = i
  · subst hir
    by_cases hlen : rid < s.requests.length
    · simp [hlen, admittedMark_amount]
    · rw [List.set_eq_of_length_le (Nat.le_of_not_lt hlen)]
  · simp [hir]

/-- The sweep is the greedy admission of the longest queue prefix that fits
under the limit: the remaining queue is the corresponding suffix, the
admitted ids are appended to the admission history in queue order, and
`consumed` grows by exactly the admitted amounts. -/
theorem sweep_greedy (q : List Nat) (s : CHState) (c : String)
    (hq : q = (s.cats c).queue) :
    ((sweep q s c).1.cats c).queue =
      (greedySplit (s.cats c).max (fun i => (s.requests.getD i default).amount)
        (s.cats c).consumed q).2 ∧
    admits (sweep q s c).1 = admits s ++
      (greedySplit (s.cats c).max (fun i => (s.requests.getD i default).amount)
        (s.cats c).consumed q).1 ∧
    ((sweep q s c).1.cats c).consumed = (s.cats c).consumed +
      amountSum (fun i => (s.requests.getD i default).amount)
        (greedySplit (s.cats c).max (fun i => (s.requests.getD i default).amount)
          (s.cats c).consumed q).1 := by
  induction q generalizing s with
  | nil =>
      simp only [sweep, greedySplit]
      split
      · refine ⟨hq.symm, ?_, by simp [amountSum]⟩
        show admitsOf (s.events ++ [Event.drain c]) = admitsOf s.events ++ []
        rw [admitsOf_append]
        simp [admitsOf]
      · exact ⟨hq.symm, by simp [admits], by simp [amountSum]⟩
  | cons rid rest ih =>
      simp only [sweep, greedySplit]
      split
      · split
        · exact ⟨hq.symm, by simp [admits], by simp [amountSum]⟩
        · exact ⟨hq.symm, by simp [admits], by simp [amountSum]⟩
      · next hfit =>
          have hq' : rest = ((admitStep s c rid rest).cats c).queue :=
            (admitStep_queue_self s c rid rest).symm
          obtain ⟨ih1, ih2, ih3⟩ := ih (admitStep s c rid rest) hq'
          rw [admitStep_amounts, admitStep_max, admitStep_consumed_self] at ih1 ih2 ih3
          have hadm : admits (admitStep s c rid rest) = admits s ++ [rid] := by
            show admitsOf _ = _
            rw [admitStep_events, admitsOf_append]
            simp [admitsOf, admits]
          refine ⟨by simpa using ih1, ?_, ?_⟩
          · rw [ih2, hadm, List.append_assoc]
            simp
          · rw [ih3]
            simp [amountSum]
            ring

theorem createCategory_requests (s : CHState) (x : Option String) :
    (createCategory s x).1.requests = s.requests := rfl

theorem createCategory_cats (s : CHState) (x : Option String) :
    (createCategory s x).1.cats = s.cats := rfl

theorem setMax_as_next (s : CHState) (c : String) (amount : Int) (hneg : ¬0 ≥ amount) :
    setMax s (some c) amount =
      next ((createCategory s (some c)).1.updateCat c fun k => { k with max := amount }) c := by
  unfold setMax
  rw [if_neg hneg]
  rfl

/-- Claim C6: `setMax` with a larger (positive) amount immediately — before
returning, with no new submission — admits exactly the longest prefix of
the category's queue that fits under the new capacity, in queue order: the
queue keeps the suffix, the admission history is extended by that prefix,
and `consumed` grows by the admitted amounts. -/
theorem C6_setMax_immediate_greedy_admission (s : CHState) (c : String) (amount : Int)
    (h : 0 < amount) :
    (((setMax s (some c) amount).1.cats c).queue =
      (greedySplit amount (fun i => (s.requests.getD i default).amount)
        ((s.cats c).consumed) ((s.cats c).queue)).2) ∧
    (admits (setMax s (some c) amount).1 = admits s ++
      (greedySplit amount (fun i => (s.requests.getD i default).amount)
        ((s.cats c).consumed) ((s.cats c).queue)).1) ∧
    (((setMax s (some c) amount).1.cats c).consumed = (s.cats c).consumed +
      amountSum (fun i => (s.requests.getD i default).amount)
        (greedySplit amount (fun i => (s.requests.getD i default).amount)
          ((s.cats c).consumed) ((s.cats c).queue)).1) := by
  have hneg : ¬0 ≥ amount := by omega
  have e1 : (((createCategory s (some c)).1.updateCat c fun k =>
      { k with max := amount }).cats c).max = amount := by
    rw [CHState.updateCat_cats]
    simp [createCategory_cats]
  have e2 : (((createCategory s (some c)).1.updateCat c fun k =>
      { k with max := amount }).cats c).consumed = (s.cats c).consumed := by
    rw [CHState.updateCat_cats]
    simp [createCategory_cats]
  have e3 : (((createCategory s (some c)).1.updateCat c fun k =>
      { k with max := amount }).cats c).queue = (s.cats c).queue := by
    rw [CHState.updateCat_cats]
    simp [createCategory_cats]
  have e4 : ((createCategory s (some c)).1.updateCat c fun k =>
      { k with max := amount }).requests = s.requests := rfl
  have e5 : admits ((createCategory s (some c)).1.updateCat c fun k =>
      { k with max := amount }) = admits s := rfl
  obtain ⟨g1, g2, g3⟩ := sweep_greedy _
    ((createCategory s (some c)).1.updateCat c fun k => { k with max := amount }) c rfl
  rw [e1, e2, e3, e4] at g1 g2 g3
  rw [e5] at g2
  rw [setMax_as_next s c amount hneg]
  simp only [next]
  rw [e3]
  exact ⟨g1, g2, g3⟩

/-- Witness for C6 at a concrete state: three submissions fill a capacity-1
category (one running, two queued); raising the capacity to 3 admits the two
queued requests within the `setMax` call. -/
theorem C6_witness :
    (((setMax (run initState [Op.queue {}, Op.queue {}, Op.queue {}]).1 (some "") 3).1.cats
        "").queue =
      (greedySplit 3
        (fun i => ((run initState [Op.queue {}, Op.queue {}, Op.queue {}]).1.requests.getD
          i default).amount)
        (((run initState [Op.queue {}, Op.queue {}, Op.queue {}]).1.cats "").consumed)
        (((run initState [Op.queue {}, Op.queue {}, Op.queue {}]).1.cats "").queue)).2) ∧
    (admits (setMax (run initState [Op.queue {}, Op.queue {}, Op.queue {}]).1 (some "") 3).1 =
      admits (run initState [Op.queue {}, Op.queue {}, Op.queue {}]).1 ++
      (greedySplit 3
        (fun i => ((run initState [Op.queue {}, Op.queue {}, Op.queue {}]).1.requests.getD
          i default).amount)
        (((run initState [Op.queue {}, Op.queue {}, Op.queue {}]).1.cats "").consumed)
        (((run initState [Op.queue {}, Op.queue {}, Op.queue {}]).1.cats "").queue)).1) ∧
    (((setMax (run initState [Op.queue {}, Op.queue {}, Op.queue {}]).1 (some "") 3).1.cats
        "").consumed =
      ((run initState [Op.queue {}, Op.queue {}, Op.queue {}]).1.cats "").consumed +
      amountSum
        (fun i => ((run initState [Op.queue {}, Op.queue {}, Op.queue {}]).1.requests.getD
          i default).amount)
        (greedySplit 3
          (fun i => ((run initState [Op.queue {}, Op.queue {}, Op.queue {}]).1.requests.getD
            i default).amount)
          (((run initState [Op.queue {}, Op.queue {}, Op.queue {}]).1.cats "").consumed)
          (((run initState [Op.queue {}, Op.queue {}, Op.queue {}]).1.cats "").queue)).1) :=
  C6_setMax_immediate_greedy_admission
    (run initState [Op.queue {}, Op.queue {}, Op.queue {}]).1 "" 3 (by decide)

/-! # C10: the category-default arguments array is shared and mutated -/

theorem next_argsId (t : CHState) (cc : String) (i : Nat) (rr : Request) (aid : Nat)
    (hb : t.requests[i]? = some rr) (hid : rr.argsId = aid) :
    ∃ r₂, (next t cc).1.requests[i]? = some r₂ ∧ r₂.argsId = aid := by
  obtain ⟨r₂, h₂, hcore⟩ := sweep_core _ t cc i rr hb
  exact ⟨r₂, h₂, ((Request.core_eq hcore).2.2.2.2.2.1).trans hid⟩

/-- The request appended by `queue` carries exactly the array reference
chosen by the arguments-resolution step (source line 304). -/
theorem queue_request_argsId (s : CHState) (cin : ConfigIn) :
    ∃ r, (queue s cin).1.requests[s.requests.length]? = some r ∧
      r.argsId = (resolveArgs (createCategory s cin.category).1 cin
        ((createCategory s cin.category).1.cats
          (createCategory s cin.category).2).defaults).1 := by
  simp only [queue]
  apply next_argsId
  · rw [updateCat_requests]
    show ((resolveArgs (createCategory s cin.category).1 cin
        ((createCategory s cin.category).1.cats
          (createCategory s cin.category).2).defaults).2.requests ++ [_])[s.requests.length]? = _
    rw [resolveArgs_requests, createCategory_requests]
    exact List.getElem?_concat_length _ _
  · rfl

/-- Claim C10, in three parts. (a) A submission that supplies no arguments
of its own stores the category-default arguments array by reference: the
new request's `argsId` is exactly the default array's heap index. (b) When
a request with `curryRelease` is admitted, the sweep prepends its release
token to the stored array in place — a `set` at that same heap index, not
a write to a copy. (c) Consequently, on the concrete trace "set a default
arguments array for category c, submit two defaulting requests, release
the first", the second request's callback receives the first request's
token among its arguments, both requests hold heap index 0, and the shared
array ends as [token 1, token 0]. -/
theorem C10_default_arguments_shared_mutation :
    (∀ (s : CHState) (cin : ConfigIn) (aid : Nat),
      cin.arguments = none →
      ((createCategory s cin.category).1.cats
        (createCategory s cin.category).2).defaults.arguments = some aid →
      ∃ r, (queue s cin).1.requests[s.requests.length]? = some r ∧ r.argsId = aid) ∧
    (∀ (s : CHState) (c : String) (rid : Nat) (rest : List Nat),
      (s.requests.getD rid default).curryRelease = true →
      (admitStep s c rid rest).arrays =
        s.arrays.set (s.requests.getD rid default).argsId
          (Val.token rid :: s.arrays.getD (s.requests.getD rid default).argsId [])) ∧
    ((run initState [Op.setCategoryDefaults (some "c") { arguments := some (some []) },
        Op.queue { category := some "c" }, Op.queue { category := some "c" },
        Op.release 0]).1.events =
      [Event.invoke 0 [Val.token 0], Event.invoke 1 [Val.token 1, Val.token 0]] ∧
     (run initState [Op.setCategoryDefaults (some "c") { arguments := some (some []) },
        Op.queue { category := some "c" }, Op.queue { category := some "c" },
        Op.release 0]).1.arrays = [[Val.token 1, Val.token 0]] ∧
     (run initState [Op.setCategoryDefaults (some "c") { arguments := some (some []) },
        Op.queue { category := some "c" }, Op.queue { category := some "c" },
        Op.release 0]).1.requests.map (fun r => r.argsId) = [0, 0]) := by
  refine ⟨?_, ?_, by decide, by decide, by decide⟩
  · intro s cin aid h1 h2
    obtain ⟨r, hr, hid⟩ := queue_request_argsId s cin
    refine ⟨r, hr, ?_⟩
    rw [hid]
    unfold resolveArgs
    rw [h1, h2]
  · intro s c rid rest h
    simp only [List.getD, List.get?_eq_getElem?] at h
    simp [admitStep, admitArgs, h]

/-- Witness for C10: after installing a default arguments array for
category c, a defaulting submission aliases heap index 0; and admitting a
curried request prepends its token in place. -/
theorem C10_witness :
    (∃ r, (queue (run initState
        [Op.setCategoryDefaults (some "c") { arguments := some (some []) }]).1
        { category := some "c" }).1.requests[(run initState
        [Op.setCategoryDefaults (some "c") { arguments := some (some []) }]).1.requests.length]? =
        some r ∧ r.argsId = 0) ∧
    ((admitStep (run initState [Op.queue {}]).1 "" 0 []).arrays =
      (run initState [Op.queue {}]).1.arrays.set
        ((run initState [Op.queue {}]).1.requests.getD 0 default).argsId
        (Val.token 0 :: (run initState [Op.queue {}]).1.arrays.getD
          ((run initState [Op.queue {}]).1.requests.getD 0 default).argsId [])) :=
  ⟨C10_default_arguments_shared_mutation.1
      (run initState [Op.setCategoryDefaults (some "c") { arguments := some (some []) }]).1
      { category := some "c" } 0 rfl (by decide),
   C10_default_arguments_shared_mutation.2.1
      (run initState [Op.queue {}]).1 "" 0 [] (by decide)⟩

/-! # C8: array contents never influence scheduling -/

theorem scrub_eq_iff (s₁ s₂ : CHState) : scrub s₁ = scrub s₂ ↔ ObsEq s₁ s₂ := by
  cases s₁ with
  | mk cats₁ requests₁ arrays₁ grc₁ dc₁ events₁ =>
  cases s₂ with
  | mk cats₂ requests₂ arrays₂ grc₂ dc₂ events₂ =>
  simp only [scrub, ObsEq, CHState.mk.injEq]
  constructor
  · rintro ⟨h1, h2, h3, h4, h5, h6⟩
    refine ⟨h1, h2, ?_, h4, h5, h6⟩
    have := congrArg List.length h3
    simpa using this
  · rintro ⟨h1, h2, h3, h4, h5, h6⟩
    refine ⟨h1, h2, ?_, h4, h5, h6⟩
    rw [List.map_const', List.map_const', h3]

theorem admitStep_obsEq {s₁ s₂ : CHState} (h : ObsEq s₁ s₂) (c : String)
    (rid : Nat) (rest : List Nat) :
    ObsEq (admitStep s₁ c rid rest) (admitStep s₂ c rid rest) := by
  obtain ⟨h1, h2, h3, h4, h5, h6⟩ := h
  refine ⟨?_, ?_, ?_, ?_, ?_, ?_⟩
  · show (admitStep s₁ c rid rest).cats = (admitStep s₂ c rid rest).cats
    simp only [admitStep]
    rw [h1, h2]
  · show (admitStep s₁ c rid rest).requests = (admitStep s₂ c rid rest).requests
    simp only [admitStep]
    rw [h1, h2, h4]
  · show (admitStep s₁ c rid rest).arrays.length = (admitStep s₂ c rid rest).arrays.length
    simp only [admitStep]
    rw [h2]
    by_cases hcur : (s₂.requests.getD rid default).curryRelease = true
    · rw [if_pos hcur, if_pos hcur]
      rw [List.length_set, List.length_set]
      exact h3
    · rw [if_neg hcur, if_neg hcur]
      exact h3
  · show (admitStep s₁ c rid rest).globalRunCount = (admitStep s₂ c rid rest).globalRunCount
    simp only [admitStep]
    rw [h4]
  · show (admitStep s₁ c rid rest).defaultCategory = (admitStep s₂ c rid rest).defaultCategory
    simp only [admitStep]
    rw [h5]
  · show (admitStep s₁ c rid rest).events.map scrubEvent =
      (admitStep s₂ c rid rest).events.map scrubEvent
    simp only [admitStep]
    rw [List.map_append, List.map_append, h6]
    simp [scrubEvent]

theorem sweep_obsEq (q : List Nat) (s₁ s₂ : CHState) (c : String) (h : ObsEq s₁ s₂) :
    ObsEq (sweep q s₁ c).1 (sweep q s₂ c).1 ∧ (sweep q s₁ c).2 = (sweep q s₂ c).2 := by
  induction q generalizing s₁ s₂ with
  | nil =>
      obtain ⟨h1, h2, h3, h4, h5, h6⟩ := h
      simp only [sweep]
      rw [h1]
      by_cases hcond : ((s₂.cats c).consumed = 0 ∧ (s₂.cats c).defaults.onDrain = true)
      · rw [if_pos hcond, if_pos hcond]
        exact ⟨⟨rfl, h2, h3, h4, h5, by rw [List.map_append, List.map_append, h6]⟩, rfl⟩
      · rw [if_neg hcond, if_neg hcond]
        exact ⟨⟨h1, h2, h3, h4, h5, h6⟩, rfl⟩
  | cons rid rest ih =>
      have h1 := h.1
      have h2 := h.2.1
      simp only [sweep]
      rw [h1, h2]
      by_cases hblock : (s₂.cats c).consumed + (s₂.requests.getD rid default).amount >
          (s₂.cats c).max
      · rw [if_pos hblock, if_pos hblock]
        by_cases hover : (s₂.requests.getD rid default).amount > (s₂.cats c).max
        · rw [if_pos hover, if_pos hover]
          exact ⟨⟨h1, h2, h.2.2.1, h.2.2.2.1, h.2.2.2.2.1, h.2.2.2.2.2⟩, rfl⟩
        · rw [if_neg hover, if_neg hover]
          exact ⟨⟨h1, h2, h.2.2.1, h.2.2.2.1, h.2.2.2.2.1, h.2.2.2.2.2⟩, rfl⟩
      · rw [if_neg hblock, if_neg hblock]
        refine ih _ _ ?_
        refine admitStep_obsEq ⟨h1, h2, h.2.2.1, h.2.2.2.1, h.2.2.2.2.1, h.2.2.2.2.2⟩ c rid rest

theorem next_obsEq (s₁ s₂ : CHState) (c : String) (h : ObsEq s₁ s₂) :
    ObsEq (next s₁ c).1 (next s₂ c).1 ∧ (next s₁ c).2 = (next s₂ c).2 := by
  have hq : (s₁.cats c).queue = (s₂.cats c).queue := by rw [h.1]
  simp only [next]
  rw [hq]
  exact sweep_obsEq _ s₁ s₂ c h

theorem createCategory_obsEq {s₁ s₂ : CHState} (h : ObsEq s₁ s₂) (x : Option String) :
    ObsEq (createCategory s₁ x).1 (createCategory s₂ x).1 ∧
      (createCategory s₁ x).2 = (createCategory s₂ x).2 := by
  obtain ⟨h1, h2, h3, h4, h5, h6⟩ := h
  unfold createCategory
  rw [h5]
  exact ⟨⟨h1, h2, h3, h4, rfl, h6⟩, rfl⟩

theorem updateCat_obsEq {s₁ s₂ : CHState} (h : ObsEq s₁ s₂) (c : String) (f : Cat → Cat) :
    ObsEq (s₁.updateCat c f) (s₂.updateCat c f) := by
  obtain ⟨h1, h2, h3, h4, h5, h6⟩ := h
  refine ⟨?_, h2, h3, h4, h5, h6⟩
  show (s₁.updateCat c f).cats = (s₂.updateCat c f).cats
  unfold CHState.updateCat
  simp only [h1]

theorem resolveArgs_obsEq {s₁ s₂ : CHState} (h : ObsEq s₁ s₂) (cin : ConfigIn)
    (cd : CatDefaults) :
    (resolveArgs s₁ cin cd).1 = (resolveArgs s₂ cin cd).1 ∧
      ObsEq (resolveArgs s₁ cin cd).2 (resolveArgs s₂ cin cd).2 := by
  obtain ⟨h1, h2, h3, h4, h5, h6⟩ := h
  unfold resolveArgs
  cases harg : cin.arguments with
  | some l =>
      exact ⟨h3, ⟨h1, h2, by simp [h3], h4, h5, h6⟩⟩
  | none =>
      cases hd : cd.arguments with
      | some aid => exact ⟨rfl, ⟨h1, h2, h3, h4, h5, h6⟩⟩
      | none => exact ⟨h3, ⟨h1, h2, by simp [h3], h4, h5, h6⟩⟩

theorem queue_obsEq (s₁ s₂ : CHState) (cin : ConfigIn) (h : ObsEq s₁ s₂) :
    ObsEq (queue s₁ cin).1 (queue s₂ cin).1 ∧ (queue s₁ cin).2 = (queue s₂ cin).2 := by
  obtain ⟨hcc, hc2⟩ := createCategory_obsEq h cin.category
  simp only [queue]
  rw [hc2, hcc.1]
  obtain ⟨hra1, hra2⟩ := resolveArgs_obsEq hcc cin
    (((createCategory s₂ cin.category).1.cats (createCategory s₂ cin.category).2).defaults)
  rw [hra1, hra2.2.1]
  refine next_obsEq _ _ _ (updateCat_obsEq ?_ _ _)
  exact ⟨hra2.1, rfl, hra2.2.2.1, hra2.2.2.2.1, hra2.2.2.2.2.1, hra2.2.2.2.2.2⟩

theorem release_obsEq (s₁ s₂ : CHState) (rid : Nat) (h : ObsEq s₁ s₂) :
    ObsEq (release s₁ rid).1 (release s₂ rid).1 ∧
      (release s₁ rid).2 = (release s₂ rid).2 := by
  simp only [release]
  rw [h.2.1]
  cases hm : s₂.requests[rid]? with
  | none => exact ⟨h, rfl⟩
  | some r =>
      by_cases hrel : r.released = true
      · simp only [hrel, if_true]
        exact ⟨h, trivial⟩
      · have hrel' : r.released = false := by simpa using hrel
        simp only [hrel', Bool.false_eq_true, if_false]
        have hupd : ObsEq
            (if r.inQueue = true then
              s₁.updateCat r.category fun k => { k with queue := k.queue.erase rid }
            else s₁.updateCat r.category fun k => { k with consumed := k.consumed - r.amount })
            (if r.inQueue = true then
              s₂.updateCat r.category fun k => { k with queue := k.queue.erase rid }
            else s₂.updateCat r.category fun k => { k with consumed := k.consumed - r.amount }) := by
          by_cases hq : r.inQueue = true
          · rw [if_pos hq, if_pos hq]
            exact updateCat_obsEq h _ _
          · rw [if_neg hq, if_neg hq]
            exact updateCat_obsEq h _ _
        refine next_obsEq _ _ _ ?_
        refine ⟨hupd.1, ?_, hupd.2.2.1, hupd.2.2.2.1, hupd.2.2.2.2.1, hupd.2.2.2.2.2⟩
        show (_ : CHState).requests.set rid _ = (_ : CHState).requests.set rid _
        rw [hupd.2.1]

theorem setCategoryDefaults_obsEq (s₁ s₂ : CHState) (x : Option String) (nd : DefaultsIn)
    (h : ObsEq s₁ s₂) :
    ObsEq (setCategoryDefaults s₁ x nd) (setCategoryDefaults s₂ x nd) := by
  obtain ⟨hcc, hc2⟩ := createCategory_obsEq h x
  simp only [setCategoryDefaults]
  rw [hc2]
  cases hnd : nd.arguments with
  | none => exact updateCat_obsEq hcc _ _
  | some oargs =>
      cases oargs with
      | none => exact updateCat_obsEq hcc _ _
      | some l =>
          have hlen : (createCategory s₁ x).1.arrays.length =
              (createCategory s₂ x).1.arrays.length := hcc.2.2.1
          rw [hlen]
          refine updateCat_obsEq ?_ _ _
          exact ⟨hcc.1, hcc.2.1, by simp [hcc.2.2.1], hcc.2.2.2.1,
            hcc.2.2.2.2.1, hcc.2.2.2.2.2⟩

theorem step_obsEq (s₁ s₂ : CHState) (op : Op) (h : ObsEq s₁ s₂) :
    ObsEq (step s₁ op).1 (step s₂ op).1 ∧ (step s₁ op).2 = (step s₂ op).2 := by
  cases op with
  | setMax cat a =>
      simp only [step, setMax]
      by_cases ha : 0 ≥ a
      · rw [if_pos ha, if_pos ha]
        exact ⟨h, rfl⟩
      · rw [if_neg ha, if_neg ha]
        obtain ⟨hcc, hc2⟩ := createCategory_obsEq h cat
        rw [hc2]
        exact next_obsEq _ _ _ (updateCat_obsEq hcc _ _)
  | getMax cat =>
      exact ⟨(createCategory_obsEq h cat).1, rfl⟩
  | getRunning cat =>
      exact ⟨(createCategory_obsEq h cat).1, rfl⟩
  | getFree cat =>
      exact ⟨(createCategory_obsEq h cat).1, rfl⟩
  | onDrain cat =>
      simp only [step, onDrain]
      obtain ⟨hcc, hc2⟩ := createCategory_obsEq h cat
      rw [hc2]
      exact ⟨updateCat_obsEq hcc _ _, trivial⟩
  | setDefaultCategory cat =>
      simp only [step, setDefaultCategory]
      obtain ⟨hcc, hc2⟩ := createCategory_obsEq h (some cat)
      rw [hc2]
      exact ⟨⟨hcc.1, hcc.2.1, hcc.2.2.1, hcc.2.2.2.1, rfl, hcc.2.2.2.2.2⟩, trivial⟩
  | setCategoryDefaults cat nd =>
      exact ⟨setCategoryDefaults_obsEq s₁ s₂ cat nd h, rfl⟩
  | queue cin =>
      exact queue_obsEq s₁ s₂ cin h
  | release rid =>
      exact release_obsEq s₁ s₂ rid h

theorem run_obsEq (ops : List Op) (s₁ s₂ : CHState) (h : ObsEq s₁ s₂) :
    ObsEq (run s₁ ops).1 (run s₂ ops).1 ∧ (run s₁ ops).2 = (run s₂ ops).2 := by
  induction ops generalizing s₁ s₂ with
  | nil => exact ⟨h, rfl⟩
  | cons op ops ih =>
      obtain ⟨h1, h2⟩ := step_obsEq s₁ s₂ op h
      obtain ⟨h3, h4⟩ := ih _ _ h1
      simp only [run]
      exact ⟨h3, by rw [h2, h4]⟩

/-- Claim C8: the scheduler's observable behavior is independent of the
contents of the argument arrays. The debug snapshot is a shallow copy: its
scalar fields are detached copies, and its nested mutable fields
(`arguments`, `context`) are references into the array heap; an external
mutation through the snapshot can therefore change only array contents —
never the queues, counters or request flags. Two runs from states that
differ only in array contents (`scrub`-equal states) produce identical
admission sequences, identical queue and counter evolution (everything in
`scrub` except argument payloads) and identical error outcomes. -/
theorem C8_snapshot_mutation_cannot_affect_scheduling (s₁ s₂ : CHState) (ops : List Op)
    (h : scrub s₁ = scrub s₂) :
    scrub (run s₁ ops).1 = scrub (run s₂ ops).1 ∧ (run s₁ ops).2 = (run s₂ ops).2 := by
  obtain ⟨h1, h2⟩ := run_obsEq ops s₁ s₂ ((scrub_eq_iff s₁ s₂).mp h)
  exact ⟨(scrub_eq_iff _ _).mpr h1, h2⟩

/-- Witness for C8: two states whose single argument array holds different
external values produce identical scrubbed outcomes and error lists on a
submission. -/
theorem C8_witness :
    scrub (run { initState with arrays := [[Val.ext 1]] } [Op.queue {}]).1 =
      scrub (run { initState with arrays := [[Val.ext 2]] } [Op.queue {}]).1 ∧
    (run { initState with arrays := [[Val.ext 1]] } [Op.queue {}]).2 =
      (run { initState with arrays := [[Val.ext 2]] } [Op.queue {}]).2 :=
  C8_snapshot_mutation_cannot_affect_scheduling
    { initState with arrays := [[Val.ext 1]] }
    { initState with arrays := [[Val.ext 2]] } [Op.queue {}] rfl

/-! # The reachable-state invariant: supporting lemmas -/

theorem runningAmount_append (c : String) (l : List Request) (r : Request) :
    runningAmount c (l ++ [r]) = runningAmount c l + contrib c r := by
  induction l with
  | nil => simp [runningAmount]
  | cons x t ih => simp [runningAmount, ih]; ring

theorem runningAmount_set (c : String) (l : List Request) (i : Nat) (r r' : Request)
    (h : l[i]? = some r) :
    runningAmount c (l.set i r') = runningAmount c l - contrib c r + contrib c r' := by
  induction l generalizing i with
  | nil => simp at h
  | cons x t ih =>
      cases i with
      | zero =>
          simp at h
          subst h
          simp [runningAmount]
          ring
      | succ j =>
          simp at h
          show runningAmount c (x :: t.set j r') = _
          simp only [runningAmount]
          rw [ih j h]
          ring

theorem indexOf_concat_self (l : List Nat) (a : Nat) (h : a ∉ l) :
    (l ++ [a]).indexOf a = l.length := by
  rw [List.indexOf_append_of_not_mem h]
  simp

theorem mem_admits_lt {s : CHState} (inv : SchedInv s) {i : Nat}
    (h : i ∈ admits s) : i < s.requests.length := by
  obtain ⟨r, hr, _⟩ := inv.admits_valid i h
  exact (List.getElem?_eq_some.mp hr).1

/-- `SchedInv` only reads the categories, the request pool and the events. -/
theorem inv_of_eq {s t : CHState} (inv : SchedInv s) (hc : t.cats = s.cats)
    (hr : t.requests = s.requests) (he : t.events = s.events) : SchedInv t := by
  have hadm : admits t = admits s := by
    show admitsOf t.events = admitsOf s.events
    rw [he]
  refine ⟨?_, ?_, ?_, ?_, ?_, ?_, ?_, ?_, ?_⟩
  · intro c i hi
    rw [hc] at hi
    rw [hr]
    exact inv.queue_valid c i hi
  · intro i r hir hq hrel
    rw [hr] at hir
    rw [hc]
    exact inv.inQueue_mem i r hir hq hrel
  · intro c
    rw [hc]
    exact inv.queue_nodup c
  · intro c
    rw [hc, hr]
    exact inv.consumed_eq c
  · intro i r hir
    rw [hr] at hir
    rw [hadm]
    exact inv.admits_iff i r hir
  · intro i hi
    rw [hadm] at hi
    rw [hr]
    exact inv.admits_valid i hi
  · rw [hadm]
    exact inv.admits_nodup
  · intro c
    rw [hc, hr]
    exact inv.order c
  · intro a b ra rb hra hrb hcat hau hbu hab hbadm
    rw [hr] at hra hrb
    rw [hadm] at hbadm ⊢
    exact inv.fifo a b ra rb hra hrb hcat hau hbu hab hbadm

/-- Admitting the queue head preserves the reachable-state invariant. -/
theorem admitStep_inv {s : CHState} {c : String} {rid : Nat} {rest : List Nat}
    (inv : SchedInv s) (hq : (s.cats c).queue = rid :: rest) :
    SchedInv (admitStep s c rid rest) := by
  obtain ⟨r₀, hr₀, hcat₀, hinq₀, hrel₀⟩ :=
    inv.queue_valid c rid (by rw [hq]; exact List.mem_cons_self rid rest)
  have hlen : rid < s.requests.length := (List.getElem?_eq_some.mp hr₀).1
  have hgd : s.requests.getD rid default = r₀ := by simp [List.getD, hr₀]
  have hreq' : (admitStep s c rid rest).requests =
      s.requests.set rid (admittedMark r₀ s.globalRunCount ((s.cats c).runCount)) := by
    rw [admitStep_requests, hgd]
  set rM := admittedMark r₀ s.globalRunCount ((s.cats c).runCount) with hrMdef
  have hrM_inq : rM.inQueue = false := admittedMark_inQueue r₀ _ _
  obtain ⟨hMcat, hMam, hMcur, hMdbg, hMun, hMargs, hMrel⟩ :=
    Request.core_eq (admittedMark_core r₀ s.globalRunCount ((s.cats c).runCount))
  have hMcatc : rM.category = c := hMcat.trans hcat₀
  have hMrelf : rM.released = false := hMrel.trans hrel₀
  have hget' : ∀ i, i ≠ rid → (admitStep s c rid rest).requests[i]? = s.requests[i]? := by
    intro i hi
    rw [hreq']
    exact List.getElem?_set_ne fun he => hi he.symm
  have hgetRid : (admitStep s c rid rest).requests[rid]? = some rM := by
    rw [hreq']
    simp [List.getElem?_set, hlen]
  have hqc : ((admitStep s c rid rest).cats c).queue = rest := admitStep_queue_self s c rid rest
  have hcne : ∀ c', c' ≠ c → (admitStep s c rid rest).cats c' = s.cats c' :=
    fun c' h => admitStep_cats_ne s c rid rest h
  have hconsc : ((admitStep s c rid rest).cats c).consumed =
      (s.cats c).consumed + r₀.amount := by
    rw [admitStep_consumed_self, hgd]
  have hadm : admits (admitStep s c rid rest) = admits s ++ [rid] := by
    show admitsOf _ = _
    rw [admitStep_events, admitsOf_append]
    simp [admitsOf, admits]
  have hridadm : rid ∉ admits s := by
    intro hmem
    have hfalse := (inv.admits_iff rid r₀ hr₀).mpr hmem
    rw [hinq₀] at hfalse
    exact absurd hfalse (by simp)
  have hridrest : rid ∉ rest := by
    have hnd := inv.queue_nodup c
    rw [hq] at hnd
    exact (List.nodup_cons.mp hnd).1
  have hsome_inj : ∀ {i : Nat} {ri : Request}, s.requests[i]? = some ri → i = rid → ri = r₀ := by
    intro i ri hri he
    subst he
    exact Option.some.inj (hri.symm.trans hr₀)
  have hnotother : ∀ c' i, c' ≠ c → i ∈ (s.cats c').queue → i ≠ rid := by
    intro c' i hne hi he
    obtain ⟨ri, hri, hcatI, _, _⟩ := inv.queue_valid c' i hi
    have hri0 := hsome_inj hri he
    rw [hri0] at hcatI
    rw [hcat₀] at hcatI
    exact hne hcatI.symm
  refine ⟨?_, ?_, ?_, ?_, ?_, ?_, ?_, ?_, ?_⟩
  -- queue_valid
  · intro c' i hi
    by_cases hcc : c' = c
    · subst hcc
      rw [hqc] at hi
      have hir : i ≠ rid := fun he => hridrest (he ▸ hi)
      obtain ⟨ri, hri, h1, h2, h3⟩ :=
        inv.queue_valid c' i (by rw [hq]; exact List.mem_cons_of_mem rid hi)
      exact ⟨ri, (hget' i hir).trans hri, h1, h2, h3⟩
    · rw [hcne c' hcc] at hi
      obtain ⟨ri, hri, h1, h2, h3⟩ := inv.queue_valid c' i hi
      have hir : i ≠ rid := hnotother c' i hcc hi
      exact ⟨ri, (hget' i hir).trans hri, h1, h2, h3⟩
  -- inQueue_mem
  · intro i ri hri hiq hirel
    by_cases hir : i = rid
    · subst hir
      rw [hgetRid] at hri
      have hri' : ri = rM := (Option.some.inj hri).symm
      rw [hri', hrM_inq] at hiq
      exact absurd hiq (by simp)
    · rw [hget' i hir] at hri
      have hmem := inv.inQueue_mem i ri hri hiq hirel
      by_cases hcc : ri.category = c
      · rw [hcc] at hmem ⊢
        rw [hq] at hmem
        rcases List.mem_cons.mp hmem with he | he
        · exact absurd he hir
        · rw [hqc]
          exact he
      · rw [hcne ri.category hcc]
        exact hmem
  -- queue_nodup
  · intro c'
    by_cases hcc : c' = c
    · subst hcc
      rw [hqc]
      have hnd := inv.queue_nodup c'
      rw [hq] at hnd
      exact (List.nodup_cons.mp hnd).2
    · rw [hcne c' hcc]
      exact inv.queue_nodup c'
  -- consumed_eq
  · intro c'
    have hrun := runningAmount_set c' s.requests rid r₀ rM hr₀
    by_cases hcc : c' = c
    · subst hcc
      rw [hconsc, hreq', hrun, inv.consumed_eq c']
      have hcr₀ : contrib c' r₀ = 0 := by
        simp [contrib, isRunning, hinq₀]
      have hcrM : contrib c' rM = r₀.amount := by
        rw [contrib, if_pos ⟨hMcatc, by simp [isRunning, hrM_inq, hMrelf]⟩, hMam]
      rw [hcr₀, hcrM]
      ring
    · rw [hcne c' hcc, hreq', hrun, inv.consumed_eq c']
      have hcr₀ : contrib c' r₀ = 0 := by
        rw [contrib, if_neg]
        rintro ⟨h1, _⟩
        rw [hcat₀] at h1
        exact hcc h1.symm
      have hcrM : contrib c' rM = 0 := by
        rw [contrib, if_neg]
        rintro ⟨h1, _⟩
        rw [hMcatc] at h1
        exact hcc h1.symm
      rw [hcr₀, hcrM]
      ring
  -- admits_iff
  · intro i ri hri
    rw [hadm]
    by_cases hir : i = rid
    · subst hir
      rw [hgetRid] at hri
      rw [← Option.some.inj hri, hrM_inq]
      simp
    · rw [hget' i hir] at hri
      have hold := inv.admits_iff i ri hri
      constructor
      · intro hf
        exact List.mem_append_left _ (hold.mp hf)
      · intro hmem
        rcases List.mem_append.mp hmem with hm | hm
        · exact hold.mpr hm
        · exact absurd (List.mem_singleton.mp hm) hir
  -- admits_valid
  · intro i hi
    rw [hadm] at hi
    rcases List.mem_append.mp hi with hm | hm
    · have hir : i ≠ rid := fun he => hridadm (he ▸ hm)
      obtain ⟨ri, hri, hinq⟩ := inv.admits_valid i hm
      exact ⟨ri, (hget' i hir).trans hri, hinq⟩
    · rw [List.mem_singleton.mp hm]
      exact ⟨rM, hgetRid, hrM_inq⟩
  -- admits_nodup
  · rw [hadm]
    simp [List.nodup_append, inv.admits_nodup, hridadm]
  -- order
  · intro c'
    by_cases hcc : c' = c
    · subst hcc
      rw [hqc]
      have hord := inv.order c'
      rw [hq] at hord
      refine List.Pairwise.imp_of_mem ?_ (List.pairwise_cons.mp hord).2
      intro a b hma hmb hab ra rb hra hrb hau hbu
      have hna : a ≠ rid := fun he => hridrest (he ▸ hma)
      have hnb : b ≠ rid := fun he => hridrest (he ▸ hmb)
      rw [hget' a hna] at hra
      rw [hget' b hnb] at hrb
      exact hab ra rb hra hrb hau hbu
    · rw [hcne c' hcc]
      refine List.Pairwise.imp_of_mem ?_ (inv.order c')
      intro a b hma hmb hab ra rb hra hrb hau hbu
      rw [hget' a (hnotother c' a hcc hma)] at hra
      rw [hget' b (hnotother c' b hcc hmb)] at hrb
      exact hab ra rb hra hrb hau hbu
  -- fifo
  · intro a b ra rb hra hrb hcat hau hbu hab hbadm
    rw [hadm] at hbadm ⊢
    by_cases hbr : b = rid
    · subst hbr
      rw [hgetRid] at hrb
      have hrbM : rb = rM := (Option.some.inj hrb).symm
      have har : a ≠ b := Nat.ne_of_lt hab
      rw [hget' a har] at hra
      have hrac : ra.category = c := by
        rw [hcat, hrbM]
        exact hMcatc
      have hr₀u : r₀.unshift = false := by
        have hh : rb.unshift = r₀.unshift := by
          rw [hrbM]
          exact hMun
        rw [← hh]
        exact hbu
      have hanotq : a ∉ (s.cats c).queue := by
        intro hmem
        rw [hq] at hmem
        rcases List.mem_cons.mp hmem with he | he
        · exact har he
        · have hord := inv.order c
          rw [hq] at hord
          have hpred := (List.pairwise_cons.mp hord).1 a he
          have hlt := hpred r₀ ra hr₀ hra hr₀u hau
          omega
      by_cases hinq : ra.inQueue = true
      · by_cases hrel : ra.released = true
        · exact Or.inr ⟨hinq, hrel⟩
        · have hrel' : ra.released = false := by simpa using hrel
          have hmem := inv.inQueue_mem a ra hra hinq hrel'
          rw [hrac] at hmem
          exact absurd hmem hanotq
      · have hinq' : ra.inQueue = false := by simpa using hinq
        have haadm : a ∈ admits s := (inv.admits_iff a ra hra).mp hinq'
        refine Or.inl ⟨List.mem_append_left _ haadm, ?_⟩
        rw [List.indexOf_append_of_mem haadm, indexOf_concat_self _ b hridadm]
        exact List.indexOf_lt_length.mpr haadm
    · have hbadm' : b ∈ admits s := by
        rcases List.mem_append.mp hbadm with hm | hm
        · exact hm
        · exact absurd (List.mem_singleton.mp hm) hbr
      rw [hget' b hbr] at hrb
      by_cases har : a = rid
      · subst har
        rw [hgetRid] at hra
        have hraM : ra = rM := (Option.some.inj hra).symm
        have hr₀u : r₀.unshift = false := by
          have hh : ra.unshift = r₀.unshift := by
            rw [hraM]
            exact hMun
          rw [← hh]
          exact hau
        have hcat' : r₀.category = rb.category := by
          rw [← hcat, hraM]
          exact hMcat.symm
        have hold := inv.fifo a b r₀ rb hr₀ hrb hcat' hr₀u hbu hab hbadm'
        rcases hold with ⟨hmem, _⟩ | ⟨_, hrel⟩
        · exact absurd hmem hridadm
        · rw [hrel₀] at hrel
          exact absurd hrel (by simp)
      · rw [hget' a har] at hra
        have hold := inv.fifo a b ra rb hra hrb hcat hau hbu hab hbadm'
        rcases hold with ⟨hmem, hlt⟩ | hr
        · refine Or.inl ⟨List.mem_append_left _ hmem, ?_⟩
          rw [List.indexOf_append_of_mem hmem, List.indexOf_append_of_mem hbadm']
          exact hlt
        · exact Or.inr hr

/-- Appending events that contain no admission (drain notifications)
preserves the invariant. -/
theorem inv_addEvents {s : CHState} (inv : SchedInv s) (es : List Event)
    (hes : admitsOf es = []) : SchedInv { s with events := s.events ++ es } := by
  have hadm : admits { s with events := s.events ++ es } = admits s := by
    show admitsOf (s.events ++ es) = admitsOf s.events
    rw [admitsOf_append, hes, List.append_nil]
  refine ⟨inv.queue_valid, inv.inQueue_mem, inv.queue_nodup, inv.consumed_eq, ?_, ?_, ?_,
    inv.order, ?_⟩
  · intro i r hir
    rw [hadm]
    exact inv.admits_iff i r hir
  · intro i hi
    rw [hadm] at hi
    exact inv.admits_valid i hi
  · rw [hadm]
    exact inv.admits_nodup
  · intro a b ra rb hra hrb hcat hau hbu hab hbadm
    rw [hadm] at hbadm ⊢
    exact inv.fifo a b ra rb hra hrb hcat hau hbu hab hbadm

/-- The sweep preserves the invariant. -/
theorem sweep_inv (q : List Nat) (s : CHState) (c : String) (inv : SchedInv s)
    (hq : q = (s.cats c).queue) : SchedInv (sweep q s c).1 := by
  induction q generalizing s with
  | nil =>
      simp only [sweep]
      split
      · exact inv_addEvents inv [Event.drain c] rfl
      · exact inv
  | cons rid rest ih =>
      simp only [sweep]
      split
      · split
        · exact inv
        · exact inv
      · exact ih (admitStep s c rid rest) (admitStep_inv inv hq.symm)
          (admitStep_queue_self s c rid rest).symm

theorem next_inv (s : CHState) (c : String) (inv : SchedInv s) : SchedInv (next s c).1 :=
  sweep_inv _ s c inv rfl

/-- Inserting a fresh request (at either end of its category's queue)
preserves the invariant. -/
theorem submit_inv {s : CHState} {c : String} {r : Request}
    (inv : SchedInv s) (hcat : r.category = c) (hinq : r.inQueue = true)
    (hrel : r.released = false) :
    SchedInv (({ s with requests := s.requests ++ [r] }).updateCat c fun k =>
      { k with queue := if r.unshift then s.requests.length :: k.queue
                        else k.queue ++ [s.requests.length] }) := by
  set n := s.requests.length with hn
  set S := ({ s with requests := s.requests ++ [r] }).updateCat c fun k =>
      { k with queue := if r.unshift then n :: k.queue else k.queue ++ [n] } with hS
  have hreqS : S.requests = s.requests ++ [r] := rfl
  have hadm : admits S = admits s := rfl
  have hgn : S.requests[n]? = some r := by
    rw [hreqS]
    exact List.getElem?_concat_length _ _
  have hqmem_lt : ∀ c' i, i ∈ (s.cats c').queue → i < n := by
    intro c' i hi
    obtain ⟨ri, hri, _⟩ := inv.queue_valid c' i hi
    exact (List.getElem?_eq_some.mp hri).1
  have hnadm : n ∉ admits s := fun h => absurd (mem_admits_lt inv h) (lt_irrefl n)
  have hlift : ∀ i, i < n → S.requests[i]? = s.requests[i]? := by
    intro i hi
    rw [hreqS]
    exact List.getElem?_append_left hi
  have hsplit : ∀ i ri, S.requests[i]? = some ri → i ≠ n → s.requests[i]? = some ri := by
    intro i ri hget hne
    have hl : i < n + 1 := by
      have := (List.getElem?_eq_some.mp hget).1
      rw [hreqS] at this
      simpa using this
    rw [← hlift i (by omega)]
    exact hget
  have hcatsc : (S.cats c).queue =
      if r.unshift then n :: (s.cats c).queue else (s.cats c).queue ++ [n] := by
    rw [hS, CHState.updateCat_cats]
    simp
  have hcats_ne : ∀ c', c' ≠ c → S.cats c' = s.cats c' := by
    intro c' h
    rw [hS, CHState.updateCat_cats]
    simp [h]
  have hcons_all : ∀ c', (S.cats c').consumed = (s.cats c').consumed := by
    intro c'
    rw [hS, CHState.updateCat_cats]
    by_cases hcc : c' = c <;> simp [hcc]
  have hmem_new : ∀ i, i ∈ (S.cats c).queue ↔ (i = n ∨ i ∈ (s.cats c).queue) := by
    intro i
    rw [hcatsc]
    by_cases hu : r.unshift = true <;> simp [hu, List.mem_cons, List.mem_append, or_comm]
  have hnewmem : n ∈ (S.cats c).queue := (hmem_new n).mpr (Or.inl rfl)
  refine ⟨?_, ?_, ?_, ?_, ?_, ?_, ?_, ?_, ?_⟩
  -- queue_valid
  · intro c' i hi
    by_cases hcc : c' = c
    · subst hcc
      rcases (hmem_new i).mp hi with he | hm
      · subst he
        exact ⟨r, hgn, hcat, hinq, hrel⟩
      · obtain ⟨ri, hri, h1, h2, h3⟩ := inv.queue_valid c' i hm
        exact ⟨ri, (hlift i (hqmem_lt c' i hm)).trans hri, h1, h2, h3⟩
    · rw [hcats_ne c' hcc] at hi
      obtain ⟨ri, hri, h1, h2, h3⟩ := inv.queue_valid c' i hi
      exact ⟨ri, (hlift i (hqmem_lt c' i hi)).trans hri, h1, h2, h3⟩
  -- inQueue_mem
  · intro i ri hri hq2 hrel2
    by_cases hin : i = n
    · subst hin
      have hrir : ri = r := (Option.some.inj (hgn.symm.trans hri)).symm
      rw [hrir, hcat]
      exact hnewmem
    · have hold := inv.inQueue_mem i ri (hsplit i ri hri hin) hq2 hrel2
      by_cases hcc : ri.category = c
      · rw [hcc] at hold ⊢
        exact (hmem_new i).mpr (Or.inr hold)
      · rw [hcats_ne ri.category hcc]
        exact hold
  -- queue_nodup
  · intro c'
    by_cases hcc : c' = c
    · subst hcc
      rw [hcatsc]
      have hnq : n ∉ (s.cats c').queue := fun h => absurd (hqmem_lt c' n h) (lt_irrefl n)
      by_cases hu : r.unshift = true
      · simp [hu, List.nodup_cons, hnq, inv.queue_nodup c']
      · simp [hu, List.nodup_append, hnq, inv.queue_nodup c']
    · rw [hcats_ne c' hcc]
      exact inv.queue_nodup c'
  -- consumed_eq
  · intro c'
    rw [hcons_all c', inv.consumed_eq c', hreqS, runningAmount_append]
    have h0 : contrib c' r = 0 := by
      simp [contrib, isRunning, hinq]
    rw [h0, add_zero]
  -- admits_iff
  · intro i ri hri
    rw [hadm]
    by_cases hin : i = n
    · subst hin
      have hrir : ri = r := (Option.some.inj (hgn.symm.trans hri)).symm
      refine iff_of_false ?_ hnadm
      rw [hrir, hinq]
      simp
    · exact inv.admits_iff i ri (hsplit i ri hri hin)
  -- admits_valid
  · intro i hi
    rw [hadm] at hi
    obtain ⟨ri, hri, hinqf⟩ := inv.admits_valid i hi
    exact ⟨ri, (hlift i (mem_admits_lt inv hi)).trans hri, hinqf⟩
  -- admits_nodup
  · rw [hadm]
    exact inv.admits_nodup
  -- order
  · intro c'
    have htransfer : ∀ c'', ((s.cats c'').queue).Pairwise (fun a b =>
        ∀ ra rb, S.requests[a]? = some ra → S.requests[b]? = some rb →
          ra.unshift = false → rb.unshift = false → a < b) := by
      intro c''
      refine List.Pairwise.imp_of_mem ?_ (inv.order c'')
      intro a b hma hmb hab ra rb hra hrb hau hbu
      rw [hlift a (hqmem_lt c'' a hma)] at hra
      rw [hlift b (hqmem_lt c'' b hmb)] at hrb
      exact hab ra rb hra hrb hau hbu
    by_cases hcc : c' = c
    · subst hcc
      rw [hcatsc]
      by_cases hu : r.unshift = true
      · rw [if_pos hu]
        rw [List.pairwise_cons]
        constructor
        · intro y hy ra rb hra hrb hau hbu
          have hrar : ra = r := (Option.some.inj (hgn.symm.trans hra)).symm
          rw [hrar, hu] at hau
          exact absurd hau (by simp)
        · exact htransfer c'
      · rw [if_neg hu]
        rw [List.pairwise_append]
        refine ⟨htransfer c', by simp, ?_⟩
        intro x hx y hy
        rw [List.mem_singleton.mp hy]
        intro ra rb hra hrb hau hbu
        exact hqmem_lt c' x hx
    · rw [hcats_ne c' hcc]
      exact htransfer c'
  -- fifo
  · intro a b ra rb hra hrb hcat2 hau hbu hab hbadm
    rw [hadm] at hbadm ⊢
    have hbn : b < n := mem_admits_lt inv hbadm
    have han : a < n := lt_trans hab hbn
    rw [hlift a han] at hra
    rw [hlift b hbn] at hrb
    exact inv.fifo a b ra rb hra hrb hcat2 hau hbu hab hbadm

/-- Cancelling a still-queued request (release before admission) preserves
the invariant. -/
theorem release_cancel_inv {s : CHState} {rid : Nat} {r r' : Request}
    (inv : SchedInv s) (hm : s.requests[rid]? = some r)
    (hinq : r.inQueue = true) (hrel : r.released = false)
    (hc' : r'.category = r.category) (hu' : r'.unshift = r.unshift)
    (hq' : r'.inQueue = true) (hrel' : r'.released = true) :
    SchedInv { s.updateCat r.category (fun k => { k with queue := k.queue.erase rid }) with
      requests := (s.updateCat r.category fun k =>
        { k with queue := k.queue.erase rid }).requests.set rid r' } := by
  have hlen : rid < s.requests.length := (List.getElem?_eq_some.mp hm).1
  set S := { s.updateCat r.category (fun k => { k with queue := k.queue.erase rid }) with
      requests := (s.updateCat r.category fun k =>
        { k with queue := k.queue.erase rid }).requests.set rid r' } with hSdef
  have hreqS : S.requests = s.requests.set rid r' := by
    rw [hSdef]
    show (s.updateCat r.category fun k => { k with queue := k.queue.erase rid }).requests.set
      rid r' = _
    rw [updateCat_requests]
  have hadm : admits S = admits s := rfl
  have hget' : ∀ i, i ≠ rid → S.requests[i]? = s.requests[i]? := by
    intro i hi
    rw [hreqS]
    exact List.getElem?_set_ne fun he => hi he.symm
  have hgetRid : S.requests[rid]? = some r' := by
    rw [hreqS]
    simp [List.getElem?_set, hlen]
  have hcatsc : (S.cats r.category).queue = ((s.cats r.category).queue).erase rid := by
    rw [hSdef]
    show ((s.updateCat r.category fun k =>
      { k with queue := k.queue.erase rid }).cats r.category).queue = _
    rw [CHState.updateCat_cats]
    simp
  have hcats_ne : ∀ c', c' ≠ r.category → S.cats c' = s.cats c' := by
    intro c' h
    rw [hSdef]
    show (s.updateCat r.category fun k =>
      { k with queue := k.queue.erase rid }).cats c' = _
    rw [CHState.updateCat_cats]
    simp [h]
  have hcons_all : ∀ c', (S.cats c').consumed = (s.cats c').consumed := by
    intro c'
    rw [hSdef]
    show ((s.updateCat r.category fun k =>
      { k with queue := k.queue.erase rid }).cats c').consumed = _
    rw [CHState.updateCat_cats]
    by_cases hcc : c' = r.category <;> simp [hcc]
  have hridadm : rid ∉ admits s := by
    intro hmem
    have hfalse := (inv.admits_iff rid r hm).mpr hmem
    rw [hinq] at hfalse
    exact absurd hfalse (by simp)
  have hsome_inj : ∀ {i : Nat} {ri : Request}, s.requests[i]? = some ri → i = rid → ri = r := by
    intro i ri hri he
    subst he
    exact Option.some.inj (hri.symm.trans hm)
  have hnotother : ∀ c' i, c' ≠ r.category → i ∈ (s.cats c').queue → i ≠ rid := by
    intro c' i hne hi he
    obtain ⟨ri, hri, hcatI, _, _⟩ := inv.queue_valid c' i hi
    rw [hsome_inj hri he] at hcatI
    exact hne hcatI.symm
  have hmem_cat : ∀ i, i ∈ (S.cats r.category).queue ↔
      (i ≠ rid ∧ i ∈ (s.cats r.category).queue) := by
    intro i
    rw [hcatsc]
    exact (inv.queue_nodup r.category).mem_erase_iff
  refine ⟨?_, ?_, ?_, ?_, ?_, ?_, ?_, ?_, ?_⟩
  -- queue_valid
  · intro c' i hi
    by_cases hcc : c' = r.category
    · subst hcc
      obtain ⟨hir, hmemi⟩ := (hmem_cat i).mp hi
      obtain ⟨ri, hri, h1, h2, h3⟩ := inv.queue_valid r.category i hmemi
      exact ⟨ri, (hget' i hir).trans hri, h1, h2, h3⟩
    · rw [hcats_ne c' hcc] at hi
      obtain ⟨ri, hri, h1, h2, h3⟩ := inv.queue_valid c' i hi
      exact ⟨ri, (hget' i (hnotother c' i hcc hi)).trans hri, h1, h2, h3⟩
  -- inQueue_mem
  · intro i ri hri hq2 hrel2
    by_cases hir : i = rid
    · subst hir
      have : ri = r' := Option.some.inj (hri.symm.trans hgetRid)
      rw [this, hrel'] at hrel2
      exact absurd hrel2 (by simp)
    · rw [hget' i hir] at hri
      have hold := inv.inQueue_mem i ri hri hq2 hrel2
      by_cases hcc : ri.category = r.category
      · rw [hcc] at hold ⊢
        exact (hmem_cat i).mpr ⟨hir, hold⟩
      · rw [hcats_ne ri.category hcc]
        exact hold
  -- queue_nodup
  · intro c'
    by_cases hcc : c' = r.category
    · subst hcc
      rw [hcatsc]
      exact (inv.queue_nodup r.category).erase rid
    · rw [hcats_ne c' hcc]
      exact inv.queue_nodup c'
  -- consumed_eq
  · intro c'
    rw [hcons_all c', inv.consumed_eq c', hreqS,
      runningAmount_set c' s.requests rid r r' hm]
    have h0 : contrib c' r = 0 := by simp [contrib, isRunning, hinq]
    have h1 : contrib c' r' = 0 := by simp [contrib, isRunning, hrel']
    rw [h0, h1]
    ring
  -- admits_iff
  · intro i ri hri
    rw [hadm]
    by_cases hir : i = rid
    · subst hir
      have : ri = r' := Option.some.inj (hri.symm.trans hgetRid)
      refine iff_of_false ?_ hridadm
      rw [this, hq']
      simp
    · rw [hget' i hir] at hri
      exact inv.admits_iff i ri hri
  -- admits_valid
  · intro i hi
    rw [hadm] at hi
    have hir : i ≠ rid := fun he => hridadm (he ▸ hi)
    obtain ⟨ri, hri, hinqf⟩ := inv.admits_valid i hi
    exact ⟨ri, (hget' i hir).trans hri, hinqf⟩
  -- admits_nodup
  · rw [hadm]
    exact inv.admits_nodup
  -- order
  · intro c'
    by_cases hcc : c' = r.category
    · subst hcc
      rw [hcatsc]
      refine List.Pairwise.imp_of_mem ?_
        ((inv.order r.category).sublist (List.erase_sublist rid ((s.cats r.category).queue)))
      intro a b hma hmb hab ra rb hra hrb hau hbu
      have hna : a ≠ rid :=
        ((inv.queue_nodup r.category).mem_erase_iff.mp hma).1
      have hnb : b ≠ rid :=
        ((inv.queue_nodup r.category).mem_erase_iff.mp hmb).1
      rw [hget' a hna] at hra
      rw [hget' b hnb] at hrb
      exact hab ra rb hra hrb hau hbu
    · rw [hcats_ne c' hcc]
      refine List.Pairwise.imp_of_mem ?_ (inv.order c')
      intro a b hma hmb hab ra rb hra hrb hau hbu
      rw [hget' a (hnotother c' a hcc hma)] at hra
      rw [hget' b (hnotother c' b hcc hmb)] at hrb
      exact hab ra rb hra hrb hau hbu
  -- fifo
  · intro a b ra rb hra hrb hcat2 hau hbu hab hbadm
    rw [hadm] at hbadm ⊢
    have hbr : b ≠ rid := fun he => hridadm (he ▸ hbadm)
    rw [hget' b hbr] at hrb
    by_cases har : a = rid
    · subst har
      have : ra = r' := Option.some.inj (hra.symm.trans hgetRid)
      exact Or.inr ⟨this ▸ hq', this ▸ hrel'⟩
    · rw [hget' a har] at hra
      exact inv.fifo a b ra rb hra hrb hcat2 hau hbu hab hbadm

/-- Releasing a running request (subtracting its amount from `consumed`)
preserves the invariant. -/
theorem release_running_inv {s : CHState} {rid : Nat} {r r' : Request}
    (inv : SchedInv s) (hm : s.requests[rid]? = some r)
    (hinq : r.inQueue = false) (hrel : r.released = false)
    (hc' : r'.category = r.category) (ha' : r'.amount = r.amount)
    (hu' : r'.unshift = r.unshift)
    (hq' : r'.inQueue = false) (hrel' : r'.released = true) :
    SchedInv { s.updateCat r.category (fun k => { k with consumed := k.consumed - r.amount }) with
      requests := (s.updateCat r.category fun k =>
        { k with consumed := k.consumed - r.amount }).requests.set rid r' } := by
  have hlen : rid < s.requests.length := (List.getElem?_eq_some.mp hm).1
  set S := { s.updateCat r.category (fun k => { k with consumed := k.consumed - r.amount }) with
      requests := (s.updateCat r.category fun k =>
        { k with consumed := k.consumed - r.amount }).requests.set rid r' } with hSdef
  have hreqS : S.requests = s.requests.set rid r' := by
    rw [hSdef]
    show (s.updateCat r.category fun k =>
      { k with consumed := k.consumed - r.amount }).requests.set rid r' = _
    rw [updateCat_requests]
  have hadm : admits S = admits s := rfl
  have hget' : ∀ i, i ≠ rid → S.requests[i]? = s.requests[i]? := by
    intro i hi
    rw [hreqS]
    exact List.getElem?_set_ne fun he => hi he.symm
  have hgetRid : S.requests[rid]? = some r' := by
    rw [hreqS]
    simp [List.getElem?_set, hlen]
  have hqueue_all : ∀ c', (S.cats c').queue = (s.cats c').queue := by
    intro c'
    rw [hSdef]
    show ((s.updateCat r.category fun k =>
      { k with consumed := k.consumed - r.amount }).cats c').queue = _
    rw [CHState.updateCat_cats]
    by_cases hcc : c' = r.category <;> simp [hcc]
  have hconsc : (S.cats r.category).consumed = (s.cats r.category).consumed - r.amount := by
    rw [hSdef]
    show ((s.updateCat r.category fun k =>
      { k with consumed := k.consumed - r.amount }).cats r.category).consumed = _
    rw [CHState.updateCat_cats]
    simp
  have hcons_ne : ∀ c', c' ≠ r.category → (S.cats c').consumed = (s.cats c').consumed := by
    intro c' h
    rw [hSdef]
    show ((s.updateCat r.category fun k =>
      { k with consumed := k.consumed - r.amount }).cats c').consumed = _
    rw [CHState.updateCat_cats]
    simp [h]
  have hridadm : rid ∈ admits s := (inv.admits_iff rid r hm).mp hinq
  have hqueue_not_rid : ∀ c' i, i ∈ (s.cats c').queue → i ≠ rid := by
    intro c' i hi he
    obtain ⟨ri, hri, _, hq2, _⟩ := inv.queue_valid c' i hi
    subst he
    have : ri = r := Option.some.inj (hri.symm.trans hm)
    rw [this, hinq] at hq2
    exact absurd hq2 (by simp)
  refine ⟨?_, ?_, ?_, ?_, ?_, ?_, ?_, ?_, ?_⟩
  -- queue_valid
  · intro c' i hi
    rw [hqueue_all c'] at hi
    obtain ⟨ri, hri, h1, h2, h3⟩ := inv.queue_valid c' i hi
    exact ⟨ri, (hget' i (hqueue_not_rid c' i hi)).trans hri, h1, h2, h3⟩
  -- inQueue_mem
  · intro i ri hri hq2 hrel2
    by_cases hir : i = rid
    · subst hir
      have : ri = r' := Option.some.inj (hri.symm.trans hgetRid)
      rw [this, hq'] at hq2
      exact absurd hq2 (by simp)
    · rw [hget' i hir] at hri
      rw [hqueue_all ri.category]
      exact inv.inQueue_mem i ri hri hq2 hrel2
  -- queue_nodup
  · intro c'
    rw [hqueue_all c']
    exact inv.queue_nodup c'
  -- consumed_eq
  · intro c'
    have hrun := runningAmount_set c' s.requests rid r r' hm
    by_cases hcc : c' = r.category
    · subst hcc
      rw [hconsc, inv.consumed_eq r.category, hreqS, hrun]
      have h0 : contrib r.category r = r.amount := by
        rw [contrib, if_pos ⟨rfl, by simp [isRunning, hinq, hrel]⟩]
      have h1 : contrib r.category r' = 0 := by simp [contrib, isRunning, hrel']
      rw [h0, h1]
      ring
    · rw [hcons_ne c' hcc, inv.consumed_eq c', hreqS, hrun]
      have h0 : contrib c' r = 0 := by
        rw [contrib, if_neg]
        rintro ⟨h1, _⟩
        exact hcc h1.symm
      have h1 : contrib c' r' = 0 := by
        rw [contrib, if_neg]
        rintro ⟨h1, _⟩
        rw [hc'] at h1
        exact hcc h1.symm
      rw [h0, h1]
      ring
  -- admits_iff
  · intro i ri hri
    rw [hadm]
    by_cases hir : i = rid
    · subst hir
      have : ri = r' := Option.some.inj (hri.symm.trans hgetRid)
      exact iff_of_true (by rw [this, hq']) hridadm
    · rw [hget' i hir] at hri
      exact inv.admits_iff i ri hri
  -- admits_valid
  · intro i hi
    rw [hadm] at hi
    by_cases hir : i = rid
    · subst hir
      exact ⟨r', hgetRid, hq'⟩
    · obtain ⟨ri, hri, hinqf⟩ := inv.admits_valid i hi
      exact ⟨ri, (hget' i hir).trans hri, hinqf⟩
  -- admits_nodup
  · rw [hadm]
    exact inv.admits_nodup
  -- order
  · intro c'
    rw [hqueue_all c']
    refine List.Pairwise.imp_of_mem ?_ (inv.order c')
    intro a b hma hmb hab ra rb hra hrb hau hbu
    rw [hget' a (hqueue_not_rid c' a hma)] at hra
    rw [hget' b (hqueue_not_rid c' b hmb)] at hrb
    exact hab ra rb hra hrb hau hbu
  -- fifo
  · intro a b ra rb hra hrb hcat2 hau hbu hab hbadm
    rw [hadm] at hbadm ⊢
    by_cases hbr : b = rid
    · subst hbr
      have hrbr : rb = r' := Option.some.inj (hrb.symm.trans hgetRid)
      have har : a ≠ b := Nat.ne_of_lt hab
      rw [hget' a har] at hra
      have hcat3 : ra.category = r.category := by
        rw [hcat2, hrbr, hc']
      have hbu2 : r.unshift = false := by
        rw [← hu', ← hrbr]
        exact hbu
      have hold := inv.fifo a b ra r hra hm hcat3 hau hbu2 hab hbadm
      rcases hold with ⟨hmem, hlt⟩ | hcancel
      · exact Or.inl ⟨hmem, hlt⟩
      · exact Or.inr hcancel
    · rw [hget' b hbr] at hrb
      by_cases har : a = rid
      · subst har
        have hrar : ra = r' := Option.some.inj (hra.symm.trans hgetRid)
        have hcat3 : r.category = rb.category := by
          rw [← hcat2, hrar, hc']
        have hau2 : r.unshift = false := by
          rw [← hu', ← hrar]
          exact hau
        have hold := inv.fifo a b r rb hm hrb hcat3 hau2 hbu hab hbadm
        rcases hold with ⟨hmem, hlt⟩ | ⟨hq2, _⟩
        · exact Or.inl ⟨hmem, hlt⟩
        · rw [hinq] at hq2
          exact absurd hq2 (by simp)
      · rw [hget' a har] at hra
        exact inv.fifo a b ra rb hra hrb hcat2 hau hbu hab hbadm

theorem release_inv (s : CHState) (rid : Nat) (inv : SchedInv s) :
    SchedInv (release s rid).1 := by
  cases hm : s.requests[rid]? with
  | none =>
      simp only [release, hm]
      exact inv
  | some r =>
      by_cases hrel : r.released = true
      · simp only [release, hm, hrel, if_true]
        exact inv
      · have hrel' : r.released = false := by simpa using hrel
        simp only [release, hm, hrel', Bool.false_eq_true, if_false]
        by_cases hq : r.inQueue = true
        · rw [if_pos hq]
          apply next_inv
          exact release_cancel_inv inv hm hq hrel'
            (by by_cases hd : r.debug = true <;> simp [hd])
            (by by_cases hd : r.debug = true <;> simp [hd])
            (by by_cases hd : r.debug = true <;> simp [hd, hq])
            (by by_cases hd : r.debug = true <;> simp [hd])
        · have hq2 : r.inQueue = false := by simpa using hq
          rw [if_neg hq]
          apply next_inv
          exact release_running_inv inv hm hq2 hrel'
            (by by_cases hd : r.debug = true <;> simp [hd])
            (by by_cases hd : r.debug = true <;> simp [hd])
            (by by_cases hd : r.debug = true <;> simp [hd])
            (by by_cases hd : r.debug = true <;> simp [hd, hq2])
            (by by_cases hd : r.debug = true <;> simp [hd])

theorem queue_inv (s : CHState) (cin : ConfigIn) (inv : SchedInv s) :
    SchedInv (queue s cin).1 := by
  simp only [queue]
  apply next_inv
  have hinv1 : SchedInv (createCategory s cin.category).1 :=
    inv_of_eq inv rfl rfl rfl
  have hinv2 : SchedInv (resolveArgs (createCategory s cin.category).1 cin
      ((createCategory s cin.category).1.cats (createCategory s cin.category).2).defaults).2 :=
    inv_of_eq hinv1
      (resolveArgs_cats _ _ _)
      (resolveArgs_requests _ _ _)
      (resolveArgs_events _ _ _)
  exact submit_inv hinv2 rfl rfl rfl

/-- Updating a category's limit or defaults (leaving its queue and consumed
counter intact) preserves the invariant. -/
theorem inv_updateCat_frame {s : CHState} (inv : SchedInv s) (c : String) (f : Cat → Cat)
    (hqf : ∀ k, (f k).queue = k.queue) (hcf : ∀ k, (f k).consumed = k.consumed) :
    SchedInv (s.updateCat c f) := by
  have hq_all : ∀ c', ((s.updateCat c f).cats c').queue = (s.cats c').queue := by
    intro c'
    rw [CHState.updateCat_cats]
    by_cases h : c' = c
    · simp [h, hqf]
    · simp [h]
  have hc_all : ∀ c', ((s.updateCat c f).cats c').consumed = (s.cats c').consumed := by
    intro c'
    rw [CHState.updateCat_cats]
    by_cases h : c' = c
    · simp [h, hcf]
    · simp [h]
  have hadm : admits (s.updateCat c f) = admits s := rfl
  refine ⟨?_, ?_, ?_, ?_, ?_, ?_, ?_, ?_, ?_⟩
  · intro c' i hi
    rw [hq_all c'] at hi
    exact inv.queue_valid c' i hi
  · intro i r hir hq2 hrel2
    rw [hq_all r.category]
    exact inv.inQueue_mem i r hir hq2 hrel2
  · intro c'
    rw [hq_all c']
    exact inv.queue_nodup c'
  · intro c'
    rw [hc_all c']
    exact inv.consumed_eq c'
  · intro i r hir
    rw [hadm]
    exact inv.admits_iff i r hir
  · intro i hi
    rw [hadm] at hi
    exact inv.admits_valid i hi
  · rw [hadm]
    exact inv.admits_nodup
  · intro c'
    rw [hq_all c']
    exact inv.order c'
  · intro a b ra rb hra hrb hcat2 hau hbu hab hbadm
    rw [hadm] at hbadm ⊢
    exact inv.fifo a b ra rb hra hrb hcat2 hau hbu hab hbadm

theorem setMax_inv (s : CHState) (category : Option String) (amount : Int)
    (inv : SchedInv s) : SchedInv (setMax s category amount).1 := by
  simp only [setMax]
  by_cases ha : 0 ≥ amount
  · rw [if_pos ha]
    exact inv
  · rw [if_neg ha]
    apply next_inv
    apply inv_updateCat_frame
    · exact inv_of_eq inv rfl rfl rfl
    · intro k
      rfl
    · intro k
      rfl

theorem initState_inv : SchedInv initState := by
  refine ⟨?_, ?_, ?_, ?_, ?_, ?_, ?_, ?_, ?_⟩ <;>
    simp [initState, Cat.init, admits, admitsOf, runningAmount]

theorem step_inv (s : CHState) (op : Op) (inv : SchedInv s) : SchedInv (step s op).1 := by
  cases op with
  | setMax cat a => exact setMax_inv s cat a inv
  | getMax cat => exact inv_of_eq inv rfl rfl rfl
  | getRunning cat => exact inv_of_eq inv rfl rfl rfl
  | getFree cat => exact inv_of_eq inv rfl rfl rfl
  | onDrain cat =>
      show SchedInv (onDrain s cat)
      simp only [onDrain]
      apply inv_updateCat_frame
      · exact inv_of_eq inv rfl rfl rfl
      · intro k
        rfl
      · intro k
        rfl
  | setDefaultCategory cat =>
      show SchedInv (setDefaultCategory s cat)
      exact inv_of_eq (inv_of_eq inv rfl rfl rfl) rfl rfl rfl
  | setCategoryDefaults cat nd =>
      show SchedInv (setCategoryDefaults s cat nd)
      simp only [setCategoryDefaults]
      cases hnd : nd.arguments with
      | none =>
          apply inv_updateCat_frame
          · exact inv_of_eq inv rfl rfl rfl
          · intro k
            rfl
          · intro k
            rfl
      | some oargs =>
          cases oargs with
          | none =>
              apply inv_updateCat_frame
              · exact inv_of_eq inv rfl rfl rfl
              · intro k
                rfl
              · intro k
                rfl
          | some l =>
              apply inv_updateCat_frame
              · exact inv_of_eq (inv_of_eq inv rfl rfl rfl) rfl rfl rfl
              · intro k
                rfl
              · intro k
                rfl
  | queue cin => exact queue_inv s cin inv
  | release rid => exact release_inv s rid inv

theorem run_inv (ops : List Op) : SchedInv (run initState ops).1 := by
  have h : ∀ (s : CHState), SchedInv s → SchedInv (run s ops).1 := by
    induction ops with
    | nil => exact fun s hs => hs
    | cons op t ih =>
        intro s hs
        simp only [run]
        exact ih _ (step_inv s op hs)
  exact h initState initState_inv

/-! # C2 and C4: the counter law and FIFO admission order -/

/-- Claim C2: after any sequence of public operations (submissions,
releases, capacity changes, drain registrations, accessors), every
category's `consumed` counter equals the sum of the amounts of its
requests in the Running state (admitted and not yet released). -/
theorem C2_consumed_equals_running_total (ops : List Op) (c : String) :
    ((run initState ops).1.cats c).consumed =
      runningAmount c (run initState ops).1.requests :=
  (run_inv ops).consumed_eq c

/-- Claim C4. First part: for two requests of the same category submitted
with `unshift = false`, in submission order `a` then `b` (request ids are
allocated in submission order), if both are ever admitted then `a` is
admitted strictly before `b` in the admission sequence. Second part: a
sweep whose queue head does not currently fit stops at the head — it
admits nothing and changes nothing (it never examines entries behind the
head). -/
theorem C4_fifo_admission_order :
    (∀ (ops : List Op) (a b : Nat) (ra rb : Request),
      (run initState ops).1.requests[a]? = some ra →
      (run initState ops).1.requests[b]? = some rb →
      ra.category = rb.category → ra.unshift = false → rb.unshift = false →
      a < b → a ∈ admits (run initState ops).1 → b ∈ admits (run initState ops).1 →
      (admits (run initState ops).1).indexOf a < (admits (run initState ops).1).indexOf b) ∧
    (∀ (s : CHState) (c : String) (rid : Nat) (rest : List Nat),
      (s.cats c).queue = rid :: rest →
      (s.cats c).consumed + (s.requests.getD rid default).amount > (s.cats c).max →
      (next s c).1 = s) := by
  constructor
  · intro ops a b ra rb hra hrb hcat hau hbu hab hadma hadmb
    have inv := run_inv ops
    rcases inv.fifo a b ra rb hra hrb hcat hau hbu hab hadmb with ⟨_, hlt⟩ | ⟨hq2, _⟩
    · exact hlt
    · obtain ⟨ra2, hra2, hinq2⟩ := inv.admits_valid a hadma
      rw [hra] at hra2
      have he : ra2 = ra := (Option.some.inj hra2).symm
      rw [he, hq2] at hinq2
      exact absurd hinq2 (by simp)
  · intro s c rid rest hq hblock
    simp only [next]
    rw [hq]
    simp only [sweep]
    rw [if_pos hblock]
    split
    · rfl
    · rfl

/-- Witness for C4: on a concrete two-submission trace both requests are
admitted and the earlier submission comes first in the admission order;
and a concrete blocked sweep is a no-op. -/
theorem C4_witness :
    ((admits (run initState [Op.setMax none 2, Op.queue {}, Op.queue {}]).1).indexOf 0 <
      (admits (run initState [Op.setMax none 2, Op.queue {}, Op.queue {}]).1).indexOf 1) ∧
    (next (run initState [Op.queue {}, Op.queue { amount := some 5 }]).1 "").1 =
      (run initState [Op.queue {}, Op.queue { amount := some 5 }]).1 :=
  ⟨C4_fifo_admission_order.1 [Op.setMax none 2, Op.queue {}, Op.queue {}] 0 1
      ((run initState [Op.setMax none 2, Op.queue {}, Op.queue {}]).1.requests.getD 0 default)
      ((run initState [Op.setMax none 2, Op.queue {}, Op.queue {}]).1.requests.getD 1 default)
      (by decide) (by decide) (by decide) (by decide) (by decide) (by decide)
      (by decide) (by decide),
   C4_fifo_admission_order.2 (run initState [Op.queue {}, Op.queue { amount := some 5 }]).1
      "" 1 [] (by decide) (by decide)⟩
